import Mathlib

/-!
A verification development for `tensorflow/core/data/service/snapshot/snapshot_stream_writer.cc`.

The C++ writer is embedded shallowly:

* Filenames are modeled as `List Char` (the `String` payload), and directories as
  association lists from filename to file content.
* `tsl::Status` / `StatusOr` is modeled by the inductive `Status` together with
  `Except Status`.
* Machine integers (`int64_t` chunk and checkpoint indices) are modeled as `Nat`:
  every index the writer itself creates starts at `0` and is incremented once per
  committed chunk, so writer-generated values are non-negative and far below
  `2^63`.  The one place where the `int64_t` bound is observable is filename
  parsing of externally supplied names: RE2's capture conversion fails for digit
  runs valuing `≥ 2^63`, and `getFileIndex` models that failure explicitly.
* The element source (`TaskIterator`) is modeled as the list of elements not yet
  produced; `GetNext` pops the head and reports end-of-sequence on the empty list;
  `Save` serializes the remaining list; `Restore` replaces it.
-/

/-- Model of `tsl::Status`: the status kinds this translation unit creates or
inspects (`OkStatus`, `errors::Cancelled`, `errors::Internal`, `errors::NotFound`). -/
inductive Status where
  | ok
  | cancelled (msg : String)
  | internal (msg : String)
  | notFound (msg : String)
deriving DecidableEq, Repr

/-- `status.ok()`. -/
def Status.isOk : Status → Bool
  | .ok => true
  | _ => false

/-- `errors::IsNotFound(status)`. -/
def Status.isNotFound : Status → Bool
  | .notFound _ => true
  | _ => false

/-- Filenames, as their character payload. -/
abbrev Name := List Char

/-- A directory: an association list from filename to file content, in listing order. -/
abbrev FileMap (α : Type) := List (Name × α)

/-- MSD-first value of a digit-character string, `'0'`–`'9'` mapping to `0`–`9`
(this is how RE2 converts the captured `(\d+)` group into an integer). -/
def digitsVal (l : List Char) : Nat :=
  l.foldl (fun a c => a * 10 + (c.toNat - 48)) 0

/-- The decimal digit character for `d < 10` (clamped at `'9'`). -/
def digitChar : Nat → Char
  | 0 => '0' | 1 => '1' | 2 => '2' | 3 => '3' | 4 => '4'
  | 5 => '5' | 6 => '6' | 7 => '7' | 8 => '8' | _ => '9'

/-- Most-significant-digit-first decimal expansion, with explicit fuel so that the
definition is structurally recursive (and hence evaluable by the kernel);
`natCharsAux fuel n` is the full expansion of `n` whenever `n ≤ fuel`. -/
def natCharsAux : Nat → Nat → List Char
  | 0, _ => []
  | _ + 1, 0 => []
  | fuel + 1, n + 1 => natCharsAux fuel ((n + 1) / 10) ++ [digitChar ((n + 1) % 10)]

/-- Decimal printing of a natural number, as `absl::StrCat` renders an `int64_t`. -/
def natChars (n : Nat) : List Char :=
  if n = 0 then ['0'] else natCharsAux n n

/-- Embedding of the anonymous-namespace helper `GetFileIndex(filename, prefix)`.

The C++ code runs `RE2::PartialMatch(filename, "<prefix>_(\d+)$", &index)` with
an `int64_t` capture argument:
* the pattern is anchored at the end of the string only, so the regex matches
  exactly when some suffix of `filename` has the shape `<prefix>_<digits>` with
  a non-empty digit run reaching the end of the name.  Because the character
  before the digit run must be `'_'` (not a digit), that digit run is
  necessarily the maximal digit suffix of `filename`;
* after the regex matches, RE2 converts the captured digit run into the
  `int64_t` argument; the conversion fails when the decimal value does not fit
  (values `≥ 2^63`), in which case `PartialMatch` returns false as if there had
  been no match.
So the parse succeeds exactly when the name ends in `<prefix>_<digits>` *and*
the digit run's value is `< 2^63`; on any failure the function returns
`errors::Internal(...)`. -/
def getFileIndex (filename pfx : Name) : Except Status Nat :=
  if filename.reverse.takeWhile Char.isDigit = [] then
    .error (.internal "Failed to extract the index for file")
  else if ('_' :: pfx.reverse).isPrefixOf (filename.reverse.dropWhile Char.isDigit) then
    if digitsVal (filename.reverse.takeWhile Char.isDigit).reverse < 2 ^ 63 then
      .ok (digitsVal (filename.reverse.takeWhile Char.isDigit).reverse)
    else
      .error (.internal "Failed to extract the index for file")
  else
    .error (.internal "Failed to extract the index for file")

/-- The filename prefix used for chunk files. -/
def chunkPfx : Name := "chunk".data

/-- The filename prefix used for checkpoint files. -/
def checkpointPfx : Name := "checkpoint".data

/-- `absl::StrCat("chunk_", i)`: the basename produced by `GetChunkFilePath`. -/
def chunkFileName (i : Nat) : Name := "chunk_".data ++ natChars i

/-- `absl::StrCat("checkpoint_", i)`: the basename produced by `CheckpointPath`. -/
def checkpointFileName (i : Nat) : Name := "checkpoint_".data ++ natChars i

/-! ### Digit and filename roundtrip lemmas -/

theorem digitChar_isDigit {d : Nat} (h : d < 10) : (digitChar d).isDigit = true := by
  interval_cases d <;> decide

theorem digitChar_val {d : Nat} (h : d < 10) : (digitChar d).toNat - 48 = d := by
  interval_cases d <;> decide

theorem digitsVal_append_singleton (l : List Char) (c : Char) :
    digitsVal (l ++ [c]) = digitsVal l * 10 + (c.toNat - 48) := by
  simp [digitsVal, List.foldl_append]

theorem natCharsAux_zero (fuel : Nat) : natCharsAux fuel 0 = [] := by
  cases fuel <;> rfl

theorem natCharsAux_all_digit :
    ∀ (fuel n : Nat), ∀ c ∈ natCharsAux fuel n, c.isDigit = true := by
  intro fuel
  induction fuel with
  | zero => intro n c hc; cases hc
  | succ f ih =>
    intro n c hc
    cases n with
    | zero => cases hc
    | succ m =>
      simp only [natCharsAux] at hc
      rcases List.mem_append.mp hc with h | h
      · exact ih _ c h
      · rw [List.mem_singleton] at h
        subst h
        exact digitChar_isDigit (Nat.mod_lt _ (by norm_num))

theorem natCharsAux_val :
    ∀ (fuel n : Nat), 0 < n → n ≤ fuel → digitsVal (natCharsAux fuel n) = n := by
  intro fuel
  induction fuel with
  | zero => intro n h1 h2; omega
  | succ f ih =>
    intro n h1 h2
    cases n with
    | zero => omega
    | succ m =>
      simp only [natCharsAux]
      rw [digitsVal_append_singleton, digitChar_val (Nat.mod_lt _ (by norm_num))]
      by_cases hq : (m + 1) / 10 = 0
      · rw [hq, natCharsAux_zero]
        have : digitsVal [] = 0 := rfl
        omega
      · have hlt : (m + 1) / 10 < m + 1 := Nat.div_lt_self (Nat.succ_pos m) (by norm_num)
        rw [ih ((m + 1) / 10) (Nat.pos_of_ne_zero hq) (by omega)]
        omega

theorem natChars_all_digit (n : Nat) : ∀ c ∈ natChars n, c.isDigit = true := by
  intro c hc
  unfold natChars at hc
  cases n with
  | zero => simp at hc; simp [hc]
  | succ m =>
    simp only [Nat.succ_ne_zero, if_false] at hc
    exact natCharsAux_all_digit _ _ c hc

theorem natChars_ne_nil (n : Nat) : natChars n ≠ [] := by
  unfold natChars
  cases n with
  | zero => simp
  | succ m =>
    simp only [Nat.succ_ne_zero, if_false, natCharsAux]
    intro h
    exact absurd (List.append_eq_nil.mp h).2 (by simp)

theorem digitsVal_natChars (n : Nat) : digitsVal (natChars n) = n := by
  unfold natChars
  cases n with
  | zero => rfl
  | succ m =>
    simp only [Nat.succ_ne_zero, if_false]
    exact natCharsAux_val _ _ (Nat.succ_pos m) (le_refl _)

/-- `takeWhile`/`dropWhile` on an all-`p` block followed by a failing element. -/
theorem takeWhile_block {p : Char → Bool} :
    ∀ (A : List Char) (b : Char) (C : List Char), (∀ a ∈ A, p a = true) → p b = false →
      (A ++ b :: C).takeWhile p = A ∧ (A ++ b :: C).dropWhile p = b :: C := by
  intro A
  induction A with
  | nil =>
    intro b C _ hb
    constructor <;> simp [List.takeWhile, List.dropWhile, hb]
  | cons a t ih =>
    intro b C hA hb
    have ha : p a = true := hA a (by simp)
    have ht : ∀ x ∈ t, p x = true := fun x hx => hA x (by simp [hx])
    obtain ⟨h1, h2⟩ := ih b C ht hb
    constructor
    · simp [List.takeWhile, ha, h1]
    · simp [List.dropWhile, ha, h2]

/-- RE2 partial-match on a name of the shape `<junk><pfx>_<digits>`: the regex
matches, and the overall result is decided by whether the digit suffix's value
fits in the `int64_t` capture. -/
theorem getFileIndex_decompose_cases (junk pfx ds : Name) (hne : ds ≠ [])
    (hds : ∀ c ∈ ds, c.isDigit = true) :
    getFileIndex (junk ++ pfx ++ '_' :: ds) pfx
      = if digitsVal ds < 2 ^ 63 then .ok (digitsVal ds)
        else .error (.internal "Failed to extract the index for file") := by
  have hrev : (junk ++ pfx ++ '_' :: ds).reverse
      = ds.reverse ++ '_' :: (pfx.reverse ++ junk.reverse) := by
    simp
  have hblk := takeWhile_block ds.reverse '_' (pfx.reverse ++ junk.reverse)
    (fun a ha => hds a (List.mem_reverse.mp ha)) (by decide)
  unfold getFileIndex
  rw [hrev, hblk.1, hblk.2]
  have hne' : ds.reverse ≠ [] := fun h => hne (by simpa using h)
  have hpre : ('_' :: pfx.reverse).isPrefixOf ('_' :: (pfx.reverse ++ junk.reverse)) = true :=
    List.isPrefixOf_iff_prefix.mpr ⟨junk.reverse, by simp⟩
  simp only [hne', if_false, List.reverse_reverse, hpre, if_true]

/-- RE2 partial-match roundtrip: a name of the shape `<junk><pfx>_<digits>` whose
digit suffix fits in `int64_t` parses to the value of that suffix. -/
theorem getFileIndex_decompose (junk pfx ds : Name) (hne : ds ≠ [])
    (hds : ∀ c ∈ ds, c.isDigit = true) (hval : digitsVal ds < 2 ^ 63) :
    getFileIndex (junk ++ pfx ++ '_' :: ds) pfx = .ok (digitsVal ds) := by
  rw [getFileIndex_decompose_cases junk pfx ds hne hds, if_pos hval]

theorem getFileIndex_chunkFileName (i : Nat) (hi : i < 2 ^ 63) :
    getFileIndex (chunkFileName i) chunkPfx = .ok i := by
  have h : chunkFileName i = [] ++ chunkPfx ++ '_' :: natChars i := by
    simp [chunkFileName, chunkPfx]
  rw [h, getFileIndex_decompose _ _ _ (natChars_ne_nil i) (natChars_all_digit i)
    (by rw [digitsVal_natChars]; exact hi), digitsVal_natChars]

theorem getFileIndex_checkpointFileName (i : Nat) (hi : i < 2 ^ 63) :
    getFileIndex (checkpointFileName i) checkpointPfx = .ok i := by
  have h : checkpointFileName i = [] ++ checkpointPfx ++ '_' :: natChars i := by
    simp [checkpointFileName, checkpointPfx]
  rw [h, getFileIndex_decompose _ _ _ (natChars_ne_nil i) (natChars_all_digit i)
    (by rw [digitsVal_natChars]; exact hi), digitsVal_natChars]

/-- Full case analysis of parsing `checkpoint_<i>`: it succeeds (with value `i`)
exactly when `i` fits in `int64_t`. -/
theorem getFileIndex_checkpointFileName_cases (i : Nat) :
    getFileIndex (checkpointFileName i) checkpointPfx
      = if i < 2 ^ 63 then .ok i
        else .error (.internal "Failed to extract the index for file") := by
  have h : checkpointFileName i = [] ++ checkpointPfx ++ '_' :: natChars i := by
    simp [checkpointFileName, checkpointPfx]
  rw [h, getFileIndex_decompose_cases _ _ _ (natChars_ne_nil i) (natChars_all_digit i),
    digitsVal_natChars]

/-! ### Directory (association list) operations -/

/-- Look up a file by name in a directory. -/
def lookupF {α : Type} : FileMap α → Name → Option α
  | [], _ => none
  | (n, v) :: t, k => if n = k then some v else lookupF t k

/-- Create or atomically overwrite a file (the effect of `Env::RenameFile` into a
directory, or of writing a fresh file): replaces an existing entry in place,
otherwise appends. -/
def setF {α : Type} : FileMap α → Name → α → FileMap α
  | [], k, v => [(k, v)]
  | (n, w) :: t, k, v => if n = k then (k, v) :: t else (n, w) :: setF t k v

/-- Delete a file by name (`Env::DeleteFile`, and the source half of a rename). -/
def delF {α : Type} : FileMap α → Name → FileMap α
  | [], _ => []
  | (n, w) :: t, k => if n = k then delF t k else (n, w) :: delF t k

/-- A serialized tensor blob; the writer's own checkpoints store the iterator's
remaining-element list as their single tensor. -/
abbrev Tensor := List Nat

/-- The in-memory and on-disk state of one `SnapshotStreamWriter`:
`chunk_index_`, `chunk_size_bytes_`, `end_of_sequence_`, `status_`, the three
directories it touches, and the `TaskIterator` position (remaining elements). -/
structure WriterState where
  chunkIndex : Nat := 0
  chunkSizeBytes : Nat := 0
  endOfSequence : Bool := false
  status : Status := .ok
  committedChunks : FileMap (List Nat) := []
  uncommittedChunks : FileMap (List Nat) := []
  checkpoints : FileMap (List Tensor) := []
  iterRemaining : List Nat := []
deriving DecidableEq, Repr

/-- `SnapshotStreamWriter::ShouldWriteChunk`: `!end_of_sequence_ && status_.ok()`. -/
def shouldWriteChunk (s : WriterState) : Bool :=
  !s.endOfSequence && s.status.isOk

/-- `SnapshotStreamWriter::ShouldWriteRecord`:
`chunk_size_bytes_ < params_.max_chunk_size_bytes && !end_of_sequence_ && status_.ok()`. -/
def shouldWriteRecord (maxChunkSizeBytes : Nat) (s : WriterState) : Bool :=
  decide (s.chunkSizeBytes < maxChunkSizeBytes) && !s.endOfSequence && s.status.isOk

/-- `SnapshotStreamWriter::ShouldSave`: `!end_of_sequence_ && status_.ok()`. -/
def shouldSave (s : WriterState) : Bool :=
  !s.endOfSequence && s.status.isOk

/-- The message of the status written by `SnapshotStreamWriter::Cancel`. -/
def cancelledMsg : String := "The tf.data service snapshot writer has been cancelled."

/-- `SnapshotStreamWriter::Cancel`: unconditionally stores
`errors::Cancelled(...)` into `status_` under the lock. -/
def cancelW (s : WriterState) : WriterState :=
  { s with status := .cancelled cancelledMsg }

/-- `SnapshotStreamWriter::Wait`: joins the snapshot thread and returns `status_`.
It only reads the state, so repeated calls return the same terminal status. -/
def waitW (s : WriterState) : Status := s.status

/-- The tail of `RunSnapshotThread`'s `snapshot_fn`: if the loop's return status
is not ok, it is stored into `status_`; otherwise `status_` is left alone.
(`WriteSnapshotFn` itself ends by returning the current `status_`.) -/
def runSnapshotThreadFinalize (loopResult : Status) (s : WriterState) : WriterState :=
  if loopResult.isOk then s else { s with status := loopResult }

/-- `SnapshotStreamWriter::DeleteOutdatedCheckpoints`: walk the checkpoints
directory in listing order; abort with the parse error on a malformed name;
delete every file whose parsed index is `< chunk_index_` (here `k`). -/
def deleteOutdatedCheckpoints (k : Nat) : FileMap (List Tensor) → Except Status (FileMap (List Tensor))
  | [] => .ok []
  | (n, c) :: t =>
    match getFileIndex n checkpointPfx with
    | .error e => .error e
    | .ok i =>
      if i < k then deleteOutdatedCheckpoints k t
      else (deleteOutdatedCheckpoints k t).map (fun t' => (n, c) :: t')

/-- `SnapshotStreamWriter::Save`: serialize the iterator (one tensor holding its
position), write it to a temp file and atomically rename it to
`checkpoint_<chunk_index_>` (collapsed here into one atomic directory update),
then prune outdated checkpoints. -/
def saveW (s : WriterState) : Except Status WriterState :=
  (deleteOutdatedCheckpoints s.chunkIndex
      (setF s.checkpoints (checkpointFileName s.chunkIndex) [s.iterRemaining])).map
    (fun cps' => { s with checkpoints := cps' })

/-- `SnapshotStreamWriter::CommitChunk`: if `ShouldSave()`, save a checkpoint
first; only then rename `uncommitted/chunk_<chunk_index_>` into the committed
directory; finally `++chunk_index_; chunk_size_bytes_ = 0`.

`saveRes` and `renameRes` inject the possible failures of the external
collaborators inside `Save` (`iterator_->Save()`, temp-file creation, the
checkpoint write) and of `Env::RenameFile` on the chunk file; `.ok ()` means the
call succeeds. -/
def commitChunkW (saveRes renameRes : Except Status Unit) (s : WriterState) :
    Except Status WriterState :=
  let doRename : WriterState → Except Status WriterState := fun s1 =>
    match renameRes with
    | .error e => .error e
    | .ok _ =>
      match lookupF s1.uncommittedChunks (chunkFileName s1.chunkIndex) with
      | none => .error (.notFound "uncommitted chunk file missing")
      | some content =>
        .ok { s1 with
          committedChunks := setF s1.committedChunks (chunkFileName s1.chunkIndex) content
          uncommittedChunks := delF s1.uncommittedChunks (chunkFileName s1.chunkIndex)
          chunkIndex := s1.chunkIndex + 1
          chunkSizeBytes := 0 }
  if shouldSave s then
    match saveRes with
    | .error e => .error e
    | .ok _ =>
      match saveW s with
      | .error e => .error e
      | .ok s1 => doRename s1
  else doRename s

/-- The fold inside `SnapshotStreamWriter::LastCheckpointIndex`:
`last_index = 0; for each name: last_index = max(last_index, GetFileIndex(name))`,
aborting on a parse error. -/
def maxCheckpointIndexAux : List Name → Nat → Except Status Nat
  | [], acc => .ok acc
  | n :: t, acc =>
    match getFileIndex n checkpointPfx with
    | .error e => .error e
    | .ok i => maxCheckpointIndexAux t (max acc i)

/-- `SnapshotStreamWriter::LastCheckpointIndex`: `NotFound` when the checkpoints
directory is empty, otherwise the running max of the parsed indices. -/
def lastCheckpointIndexW (names : List Name) : Except Status Nat :=
  if names = [] then .error (.notFound "No checkpoint has been written in directory")
  else maxCheckpointIndexAux names 0

/-- `SnapshotStreamWriter::SyncCheckpointWithChunks`: walk the uncommitted-chunks
directory in listing order; abort with the parse error on a malformed name; a
chunk with index `i ≤ k` is renamed into the committed directory, one with
`i > k` is deleted.  Returns the resulting committed directory (every processed
entry leaves the uncommitted directory). -/
def syncCheckpointWithChunks (k : Nat) (committed : FileMap (List Nat)) :
    FileMap (List Nat) → Except Status (FileMap (List Nat))
  | [] => .ok committed
  | (n, c) :: t =>
    match getFileIndex n chunkPfx with
    | .error e => .error e
    | .ok i =>
      if i ≤ k then syncCheckpointWithChunks k (setF committed n c) t
      else syncCheckpointWithChunks k committed t

/-- `SnapshotStreamWriter::Restore`: look up the latest checkpoint index
(absorbing `NotFound` as "nothing to restore"); read the checkpoint file; fail
with `errors::Internal` unless it holds exactly one tensor; restore the
iterator from that tensor; reconcile the uncommitted chunks against the
checkpoint index; set `chunk_index_ = checkpoint_index + 1`. -/
def restoreW (s : WriterState) : Except Status WriterState :=
  match lastCheckpointIndexW (s.checkpoints.map Prod.fst) with
  | .error e => if e.isNotFound then .ok s else .error e
  | .ok k =>
    match lookupF s.checkpoints (checkpointFileName k) with
    | none => .error (.notFound "checkpoint file missing")
    | some ts =>
      match ts with
      | [t] =>
        match syncCheckpointWithChunks k s.committedChunks s.uncommittedChunks with
        | .error e => .error e
        | .ok com' =>
          .ok { s with
                iterRemaining := t
                committedChunks := com'
                uncommittedChunks := []
                chunkIndex := k + 1 }
      | _ => .error (.internal "A snapshot checkpoint file is expected to contain 1 Tensor")

/-- The record loop of `SnapshotStreamWriter::WriteChunk` with the body of
`WriteRecord`: while `chunk_size_bytes_ < max && !end_of_sequence_` (status is ok
throughout a successful chunk), pull the next element; on end-of-sequence close
the file; otherwise append the element to the chunk file and add its estimated
size (`sz`) to the running byte count.  Arguments: remaining elements, current
`chunk_size_bytes_`, chunk file contents so far.  Returns the final chunk file
contents, the remaining elements, and `end_of_sequence_`. -/
def writeRecords (maxSz : Nat) (sz : Nat → Nat) :
    List Nat → Nat → List Nat → List Nat × List Nat × Bool
  | rem, csz, file =>
    if csz < maxSz then
      match rem with
      | [] => (file, [], true)
      | e :: rest => writeRecords maxSz sz rest (csz + sz e) (file ++ [e])
    else (file, rem, false)

instance {ε α : Type} [DecidableEq ε] [DecidableEq α] : DecidableEq (Except ε α) := fun x y =>
  match x, y with
  | .ok a, .ok b => if h : a = b then isTrue (by rw [h]) else isFalse (by simpa using h)
  | .error a, .error b => if h : a = b then isTrue (by rw [h]) else isFalse (by simpa using h)
  | .ok _, .error _ => isFalse (by simp)
  | .error _, .ok _ => isFalse (by simp)

/-! ### C6 — cancellation -/

/-- C6: after `Cancel()` stores the `Cancelled` status, every loop-boundary guard
(`ShouldWriteChunk` before starting a chunk, `ShouldWriteRecord` before pulling an
element, `ShouldSave` before checkpointing) is false, so the background loop
starts no new chunk, pulls no element and saves no checkpoint once it observes
the status; `Wait()` returns the `Cancelled` terminal status.  The background
thread's own terminal write (`RunSnapshotThread`'s `snapshot_fn`, which stores
`WriteSnapshotFn`'s non-ok return value) re-writes the same `Cancelled` value,
and `Wait()` is a pure read of `status_`, so a second `Wait()` returns the same
terminal status; `Cancel()` is also idempotent. -/
theorem claim_C6_cancellation_stops_loop (s : WriterState) (maxChunkSizeBytes : Nat) :
    shouldWriteChunk (cancelW s) = false ∧
    shouldWriteRecord maxChunkSizeBytes (cancelW s) = false ∧
    shouldSave (cancelW s) = false ∧
    waitW (cancelW s) = .cancelled cancelledMsg ∧
    waitW (runSnapshotThreadFinalize (waitW (cancelW s)) (cancelW s)) = .cancelled cancelledMsg ∧
    cancelW (cancelW s) = cancelW s := by
  refine ⟨?_, ?_, ?_, rfl, ?_, rfl⟩
  · simp [shouldWriteChunk, cancelW, Status.isOk]
  · simp [shouldWriteRecord, cancelW, Status.isOk]
  · simp [shouldSave, cancelW, Status.isOk]
  · simp [waitW, runSnapshotThreadFinalize, cancelW, Status.isOk]

/-! ### C10 — cancel overwrites any previously recorded status -/

/-- C10: `Cancel()` assigns `status_` unconditionally under the lock, whatever the
current value; in particular a `Cancel()` issued after the loop has recorded an
internal error makes `Wait()` return `Cancelled`, and the original error status
(a distinct `Status` value) is lost.  The status observed by `Wait()` is
whichever write happened last. -/
theorem claim_C10_cancel_overwrites_error (s : WriterState) (m : String) :
    (cancelW s).status = .cancelled cancelledMsg ∧
    waitW (cancelW { s with status := .internal m }) = .cancelled cancelledMsg ∧
    Status.cancelled cancelledMsg ≠ .internal m := by
  exact ⟨rfl, rfl, by simp⟩

/-! ### C9 — filename index parsing -/

/-- The spec's filename grammar `<prefix>_<digits>` read as a *full* match: the
whole name is the prefix, one underscore, and a non-empty digit run.  (Second
definition following the spec's words, for comparison with `getFileIndex`.) -/
def matchesExactPattern (filename pfx : Name) : Bool :=
  (pfx ++ ['_']).isPrefixOf filename &&
    (let ds := filename.drop (pfx.length + 1)
     !ds.isEmpty && ds.all Char.isDigit)

/-- C9 counterexample: `GetFileIndex` uses `RE2::PartialMatch` with a pattern
anchored only at the end of the name, so `"xchunk_3"` parses successfully (index
3) with prefix `"chunk"` even though it does not match the full pattern
`chunk_<digits>`; parsing therefore does *not* succeed exactly on full-pattern
matches. -/
theorem claim_C9_counterexample :
    getFileIndex "xchunk_3".data chunkPfx = .ok 3 ∧
    matchesExactPattern "xchunk_3".data chunkPfx = false := by
  exact ⟨by decide, by decide⟩

/-- Forward decomposition: a successful parse exhibits the name as
`<junk><pfx>_<digits>` with a digit suffix fitting in `int64_t`. -/
theorem getFileIndex_ok_decompose (filename pfx : Name) (i : Nat)
    (h : getFileIndex filename pfx = .ok i) :
    ∃ junk ds, ds ≠ [] ∧ (∀ c ∈ ds, c.isDigit = true) ∧
      filename = junk ++ pfx ++ '_' :: ds ∧ digitsVal ds < 2 ^ 63 := by
  unfold getFileIndex at h
  by_cases hds : filename.reverse.takeWhile Char.isDigit = []
  · simp [hds] at h
  · simp only [hds, if_false] at h
    by_cases hpre :
        ('_' :: pfx.reverse).isPrefixOf (filename.reverse.dropWhile Char.isDigit) = true
    · by_cases hval :
          digitsVal (filename.reverse.takeWhile Char.isDigit).reverse < 2 ^ 63
      · obtain ⟨t, ht⟩ := List.isPrefixOf_iff_prefix.mp hpre
        refine ⟨t.reverse, (filename.reverse.takeWhile Char.isDigit).reverse, ?_, ?_, ?_, hval⟩
        · intro hcon
          exact hds (by simpa using congrArg List.reverse hcon)
        · intro c hc
          exact List.mem_takeWhile_imp (List.mem_reverse.mp hc)
        · have hfull : filename.reverse.takeWhile Char.isDigit ++ ('_' :: pfx.reverse ++ t)
              = filename.reverse := by
            rw [ht]
            exact List.takeWhile_append_dropWhile Char.isDigit filename.reverse
          have := congrArg List.reverse hfull
          simpa using this.symm
      · rw [if_pos hpre, if_neg hval] at h
        cases h
    · simp [hpre] at h

/-- C9 amended: index parsing succeeds exactly when the name *ends with*
`<prefix>_<digits>` (any junk may precede the prefix: the RE2 pattern is anchored
only at the end of the name) *and* the digit run's decimal value fits in the
`int64_t` capture (is `< 2^63`; RE2's capture conversion fails otherwise).  Any
other name yields a fatal internal error: `checkpoint_abc` has no digit suffix,
`checkpoint_99999999999999999999` overflows `int64_t`, and such a file in the
checkpoints directory makes startup (`Restore`) fail with an internal error
before any chunk writing begins. -/
theorem claim_C9_amended_parse_iff_end_pattern :
    (∀ filename pfx : Name,
      (∃ i, getFileIndex filename pfx = .ok i) ↔
        ∃ junk ds, ds ≠ [] ∧ (∀ c ∈ ds, c.isDigit = true) ∧
          filename = junk ++ pfx ++ '_' :: ds ∧ digitsVal ds < 2 ^ 63) ∧
    getFileIndex "checkpoint_abc".data checkpointPfx
      = .error (.internal "Failed to extract the index for file") ∧
    getFileIndex "checkpoint_99999999999999999999".data checkpointPfx
      = .error (.internal "Failed to extract the index for file") ∧
    restoreW { checkpoints := [("checkpoint_abc".data, [[1]])] }
      = .error (.internal "Failed to extract the index for file") := by
  refine ⟨fun filename pfx => ⟨?_, ?_⟩, by decide, by decide, by decide⟩
  · rintro ⟨i, hi⟩
    exact getFileIndex_ok_decompose filename pfx i hi
  · rintro ⟨junk, ds, hne, hds, rfl, hval⟩
    exact ⟨digitsVal ds, getFileIndex_decompose junk pfx ds hne hds hval⟩

/-- Witness for the amended C9: `"chunk_12"` ends with `chunk_<digits>` and 12
fits in `int64_t`, so the theorem yields a successful parse. -/
theorem claim_C9_amended_witness :
    ∃ i, getFileIndex "chunk_12".data chunkPfx = .ok i :=
  (claim_C9_amended_parse_iff_end_pattern.1 "chunk_12".data chunkPfx).mpr
    ⟨[], ['1', '2'], by decide, by decide, by decide, by decide⟩

/-! ### C7 — latest-checkpoint lookup -/

/-- The running-max fold of `LastCheckpointIndex`: on success the result bounds
every parsed index, is at least the accumulator, and is attained (by the
accumulator or by some file). -/
theorem maxCheckpointIndexAux_spec :
    ∀ (names : List Name) (acc k : Nat), maxCheckpointIndexAux names acc = .ok k →
      acc ≤ k ∧ (∀ n ∈ names, ∀ i, getFileIndex n checkpointPfx = .ok i → i ≤ k) ∧
      (k = acc ∨ ∃ n ∈ names, getFileIndex n checkpointPfx = .ok k) := by
  intro names
  induction names with
  | nil =>
    intro acc k h
    simp only [maxCheckpointIndexAux] at h
    cases h
    exact ⟨le_refl _, by simp, Or.inl rfl⟩
  | cons n t ih =>
    intro acc k h
    simp only [maxCheckpointIndexAux] at h
    cases hp : getFileIndex n checkpointPfx with
    | error e => rw [hp] at h; cases h
    | ok i =>
      rw [hp] at h
      obtain ⟨h1, h2, h3⟩ := ih (max acc i) k h
      refine ⟨le_trans (le_max_left _ _) h1, ?_, ?_⟩
      · intro n' hn' i' hi'
        rcases List.mem_cons.mp hn' with rfl | hn'
        · rw [hp] at hi'
          cases hi'
          exact le_trans (le_max_right _ _) h1
        · exact h2 n' hn' i' hi'
      · rcases h3 with h3 | ⟨n', hn', hpn'⟩
        · rcases max_choice acc i with hm | hm
          · exact Or.inl (by rw [h3, hm])
          · exact Or.inr ⟨n, by simp, by rw [hp, h3, hm]⟩
        · exact Or.inr ⟨n', by simp [hn'], hpn'⟩

/-- The fold succeeds when every name parses. -/
theorem maxCheckpointIndexAux_ok :
    ∀ (names : List Name) (acc : Nat),
      (∀ n ∈ names, ∃ i, getFileIndex n checkpointPfx = .ok i) →
      ∃ k, maxCheckpointIndexAux names acc = .ok k := by
  intro names
  induction names with
  | nil => intro acc _; exact ⟨acc, rfl⟩
  | cons n t ih =>
    intro acc hall
    obtain ⟨i, hi⟩ := hall n (by simp)
    obtain ⟨k, hk⟩ := ih (max acc i) (fun n' hn' => hall n' (by simp [hn']))
    exact ⟨k, by simp only [maxCheckpointIndexAux, hi]; exact hk⟩

/-- C7: `LastCheckpointIndex` returns the maximum of the indices parsed from the
checkpoint filenames; on an empty directory it returns `NotFound`, which
`Restore` absorbs as the normal first-run case: nothing is restored, the state
(including `chunk_index_`, still at its initial value 0) is unchanged, and the
writer proceeds to the write loop. -/
theorem claim_C7_last_checkpoint_lookup (names : List Name) (s0 : WriterState)
    (h0 : s0.checkpoints = []) :
    (∃ m, lastCheckpointIndexW [] = .error (.notFound m)) ∧
    restoreW s0 = .ok s0 ∧
    (names ≠ [] → (∀ n ∈ names, ∃ i, getFileIndex n checkpointPfx = .ok i) →
      ∃ k, lastCheckpointIndexW names = .ok k ∧
        (∀ n ∈ names, ∀ i, getFileIndex n checkpointPfx = .ok i → i ≤ k) ∧
        (∃ n ∈ names, getFileIndex n checkpointPfx = .ok k)) := by
  refine ⟨⟨"No checkpoint has been written in directory", rfl⟩, ?_, ?_⟩
  · unfold restoreW
    rw [h0]
    rfl
  · intro hne hall
    obtain ⟨k, hk⟩ := maxCheckpointIndexAux_ok names 0 hall
    obtain ⟨-, h2, h3⟩ := maxCheckpointIndexAux_spec names 0 k hk
    refine ⟨k, ?_, h2, ?_⟩
    · unfold lastCheckpointIndexW
      simp only [hne, if_false]
      exact hk
    · rcases h3 with h3 | h3
      · -- the fold returned the initial accumulator 0: every parsed index is ≤ 0,
        -- and some file parses (names is non-empty), so index 0 is attained
        cases names with
        | nil => exact absurd rfl hne
        | cons n t =>
          obtain ⟨i, hi⟩ := hall n (by simp)
          have : i ≤ k := h2 n (by simp) i hi
          have : i = k := by omega
          exact ⟨n, by simp, by rw [← this]; exact hi⟩
      · exact h3

/-- Witness for C7 at a concrete directory: `["checkpoint_2", "checkpoint_7"]`
yields maximum 7, and the empty directory restores nothing. -/
theorem claim_C7_witness :
    ∃ k, lastCheckpointIndexW ["checkpoint_2".data, "checkpoint_7".data] = .ok k ∧
      (∀ n ∈ ["checkpoint_2".data, "checkpoint_7".data],
        ∀ i, getFileIndex n checkpointPfx = .ok i → i ≤ k) ∧
      (∃ n ∈ ["checkpoint_2".data, "checkpoint_7".data],
        getFileIndex n checkpointPfx = .ok k) :=
  (claim_C7_last_checkpoint_lookup ["checkpoint_2".data, "checkpoint_7".data] {} rfl).2.2
    (by decide)
    (by intro n hn
        rcases List.mem_cons.mp hn with rfl | hn
        · exact ⟨2, by decide⟩
        rcases List.mem_cons.mp hn with rfl | hn
        · exact ⟨7, by decide⟩
        · cases hn)

/-! ### C8 — malformed checkpoint payload -/

/-- C8: when the checkpoint file selected by the latest-checkpoint lookup holds
anything other than exactly one serialized tensor, `Restore` fails with a fatal
`errors::Internal` error.  The error propagates out of `Restore` (it is not
retried), so the iterator's position is never restored — in this model the
failing `restoreW` returns no successor state at all, and
`iterator_->Restore(...)` is syntactically reachable only in the
exactly-one-tensor branch of `restoreW`. -/
theorem claim_C8_malformed_checkpoint_payload (s : WriterState) (k : Nat) (ts : List Tensor)
    (hk : lastCheckpointIndexW (s.checkpoints.map Prod.fst) = .ok k)
    (hfile : lookupF s.checkpoints (checkpointFileName k) = some ts)
    (hlen : ts.length ≠ 1) :
    restoreW s = .error (.internal "A snapshot checkpoint file is expected to contain 1 Tensor") := by
  match ts, hlen with
  | [], _ => simp only [restoreW, hk, hfile]
  | [t], hlen => exact absurd rfl hlen
  | t1 :: t2 :: rest, _ => simp only [restoreW, hk, hfile]

/-- Witness for C8: a checkpoint directory holding `checkpoint_0` with an empty
payload (zero tensors) makes `Restore` fail with the internal error. -/
theorem claim_C8_witness :
    restoreW { checkpoints := [("checkpoint_0".data, [])] }
      = .error (.internal "A snapshot checkpoint file is expected to contain 1 Tensor") :=
  claim_C8_malformed_checkpoint_payload
    { checkpoints := [("checkpoint_0".data, [])] } 0 []
    (by decide) (by decide) (by decide)

/-! ### C5 — chunk size boundary -/

/-- Estimated total size of a list of elements (`EstimatedSizeBytes` summed). -/
def sumSz (sz : Nat → Nat) (l : List Nat) : Nat := (l.map sz).sum

theorem sumSz_append (sz : Nat → Nat) (a b : List Nat) :
    sumSz sz (a ++ b) = sumSz sz a + sumSz sz b := by
  simp [sumSz]

/-- Invariant of the record loop: the elements pulled are an initial run of the
remaining elements, appended to the file, and each pull happened while the
accumulated size was still strictly below the maximum. -/
theorem writeRecords_spec (maxSz : Nat) (sz : Nat → Nat) :
    ∀ (rem : List Nat) (csz : Nat) (file : List Nat),
      ∃ pulled,
        rem = pulled ++ (writeRecords maxSz sz rem csz file).2.1 ∧
        (writeRecords maxSz sz rem csz file).1 = file ++ pulled ∧
        (∀ j, j < pulled.length → csz + sumSz sz (pulled.take j) < maxSz) := by
  intro rem
  induction rem with
  | nil =>
    intro csz file
    refine ⟨[], ?_, ?_, by simp⟩ <;> by_cases h : csz < maxSz <;>
      simp [writeRecords, h]
  | cons e rest ih =>
    intro csz file
    by_cases h : csz < maxSz
    · obtain ⟨pulled, h1, h2, h3⟩ := ih (csz + sz e) (file ++ [e])
      refine ⟨e :: pulled, ?_, ?_, ?_⟩
      · simpa [writeRecords, h] using congrArg (e :: ·) h1
      · simpa [writeRecords, h] using h2
      · intro j hj
        cases j with
        | zero => simpa [sumSz] using h
        | succ j' =>
          have h4 := h3 j' (by simpa using hj)
          simp only [List.take_succ_cons, sumSz, List.map_cons, List.sum_cons] at h4 ⊢
          omega
    · exact ⟨[], by simp [writeRecords, h], by simp [writeRecords, h], by simp⟩

/-- C5: while writing a chunk, a new element is pulled only while the accumulated
estimated size is strictly below the configured maximum (and the source is not
exhausted and status is ok — the loop stops at the first failing guard).  Hence
before each pulled element the accumulated size was `< maxSz` (a chunk never
starts a new element once the threshold is met), and the final chunk can exceed
the maximum only by the estimated size of its last element. -/
theorem claim_C5_size_boundary (maxSz : Nat) (sz : Nat → Nat) (rem : List Nat) :
    ∃ pulled rest,
      rem = pulled ++ rest ∧
      (writeRecords maxSz sz rem 0 []).1 = pulled ∧
      (∀ j, j < pulled.length → sumSz sz (pulled.take j) < maxSz) ∧
      (pulled ≠ [] → sumSz sz pulled < maxSz + sz (pulled.getLastD 0)) := by
  obtain ⟨pulled, h1, h2, h3⟩ := writeRecords_spec maxSz sz rem 0 []
  refine ⟨pulled, (writeRecords maxSz sz rem 0 []).2.1, h1, by simpa using h2, ?_, ?_⟩
  · intro j hj
    simpa using h3 j hj
  · intro hne
    rcases List.eq_nil_or_concat pulled with rfl | ⟨ys, b, hcat⟩
    · exact absurd rfl hne
    rw [List.concat_eq_append] at hcat
    subst hcat
    have hdrop : sumSz sz ys < maxSz := by
      have h5 := h3 ys.length (by simp)
      rw [show (ys ++ [b]).take ys.length = ys from List.take_left ys [b]] at h5
      omega
    rw [List.getLastD_concat, sumSz_append]
    have hb : sumSz sz [b] = sz b := by simp [sumSz]
    omega

/-- Witness for C5 at a concrete run: max size 10, identity sizes, source
`[4, 5, 6]` — all three elements are pulled (the size passes 10 only with the
last element). -/
theorem claim_C5_witness :
    ∃ pulled rest,
      ([4, 5, 6] : List Nat) = pulled ++ rest ∧
      (writeRecords 10 (fun e => e) [4, 5, 6] 0 []).1 = pulled ∧
      (∀ j, j < pulled.length → sumSz (fun e => e) (pulled.take j) < 10) ∧
      (pulled ≠ [] → sumSz (fun e => e) pulled < 10 + (fun e => e) (pulled.getLastD 0)) :=
  claim_C5_size_boundary 10 (fun e => e) [4, 5, 6]

/-! ### C4 — checkpoint index monotonicity and pruning -/

theorem setF_mem {α : Type} : ∀ (m : FileMap α) (k : Name) (v : α), (k, v) ∈ setF m k v := by
  intro m k v
  induction m with
  | nil => simp [setF]
  | cons nw t ih =>
    obtain ⟨n, w⟩ := nw
    by_cases h : n = k <;> simp [setF, h, ih]

theorem lookupF_setF_self {α : Type} : ∀ (m : FileMap α) (k : Name) (v : α),
    lookupF (setF m k v) k = some v := by
  intro m k v
  induction m with
  | nil => simp [setF, lookupF]
  | cons nw t ih =>
    obtain ⟨n, w⟩ := nw
    by_cases h : n = k <;> simp [setF, lookupF, h, ih]

/-- Soundness of pruning: every surviving checkpoint entry was already in the
directory and its parsed index is `≥ k`. -/
theorem deleteOutdatedCheckpoints_sub :
    ∀ (k : Nat) (files files' : FileMap (List Tensor)),
      deleteOutdatedCheckpoints k files = .ok files' →
      ∀ nc ∈ files', nc ∈ files ∧ ∀ i, getFileIndex nc.1 checkpointPfx = .ok i → k ≤ i := by
  intro k files
  induction files with
  | nil =>
    intro files' h nc hnc
    simp only [deleteOutdatedCheckpoints] at h
    cases h
    cases hnc
  | cons nc0 t ih =>
    intro files' h nc hnc
    obtain ⟨n, c⟩ := nc0
    simp only [deleteOutdatedCheckpoints] at h
    cases hp : getFileIndex n checkpointPfx with
    | error e => rw [hp] at h; cases h
    | ok i =>
      rw [hp] at h
      by_cases hlt : i < k
      · simp only [hlt, if_true] at h
        obtain ⟨h1, h2⟩ := ih files' h nc hnc
        exact ⟨by simp [h1], h2⟩
      · simp only [hlt, if_false] at h
        cases hdel : deleteOutdatedCheckpoints k t with
        | error e => rw [hdel] at h; cases h
        | ok t' =>
          rw [hdel] at h
          cases h
          rcases List.mem_cons.mp hnc with rfl | hnc'
          · refine ⟨by simp, ?_⟩
            intro i' hi'
            rw [hp] at hi'
            cases hi'
            omega
          · obtain ⟨h1, h2⟩ := ih t' hdel nc hnc'
            exact ⟨by simp [h1], h2⟩

/-- Completeness of pruning: an entry whose parsed index is `≥ k` survives. -/
theorem deleteOutdatedCheckpoints_keep :
    ∀ (k : Nat) (files files' : FileMap (List Tensor)),
      deleteOutdatedCheckpoints k files = .ok files' →
      ∀ nc ∈ files, ∀ i, getFileIndex nc.1 checkpointPfx = .ok i → k ≤ i → nc ∈ files' := by
  intro k files
  induction files with
  | nil =>
    intro files' _ nc hnc
    cases hnc
  | cons nc0 t ih =>
    intro files' h nc hnc i hi hki
    obtain ⟨n, c⟩ := nc0
    simp only [deleteOutdatedCheckpoints] at h
    cases hp : getFileIndex n checkpointPfx with
    | error e => rw [hp] at h; cases h
    | ok i0 =>
      rw [hp] at h
      rcases List.mem_cons.mp hnc with heq | hnc'
      · have hn : n = nc.1 := by rw [heq]
        rw [hn, hi] at hp
        cases hp
        have hlt : ¬ i < k := by omega
        simp only [hlt, if_false] at h
        cases hdel : deleteOutdatedCheckpoints k t with
        | error e => rw [hdel] at h; cases h
        | ok t' =>
          rw [hdel] at h
          cases h
          rw [heq]
          exact List.mem_cons_self _ _
      · by_cases hlt : i0 < k
        · simp only [hlt, if_true] at h
          exact ih files' h nc hnc' i hi hki
        · simp only [hlt, if_false] at h
          cases hdel : deleteOutdatedCheckpoints k t with
          | error e => rw [hdel] at h; cases h
          | ok t' =>
            rw [hdel] at h
            cases h
            exact List.mem_cons_of_mem _ (ih t' hdel nc hnc' i hi hki)

/-- Pruning walks every directory entry and aborts on the first parse failure,
so on success every entry's name parsed. -/
theorem deleteOutdatedCheckpoints_parses :
    ∀ (k : Nat) (files files' : FileMap (List Tensor)),
      deleteOutdatedCheckpoints k files = .ok files' →
      ∀ nc ∈ files, ∃ i, getFileIndex nc.1 checkpointPfx = .ok i := by
  intro k files
  induction files with
  | nil =>
    intro files' _ nc hnc
    cases hnc
  | cons nc0 t ih =>
    intro files' h nc hnc
    obtain ⟨n, c⟩ := nc0
    simp only [deleteOutdatedCheckpoints] at h
    cases hp : getFileIndex n checkpointPfx with
    | error e => rw [hp] at h; cases h
    | ok i =>
      rw [hp] at h
      rcases List.mem_cons.mp hnc with heq | hnc'
      · exact ⟨i, by rw [heq]; exact hp⟩
      · by_cases hlt : i < k
        · simp only [hlt, if_true] at h
          exact ih files' h nc hnc'
        · simp only [hlt, if_false] at h
          cases hdel : deleteOutdatedCheckpoints k t with
          | error e => rw [hdel] at h; cases h
          | ok t' => exact ih t' hdel nc hnc'

/-- A successful prune of `setF cps (checkpointFileName k) v` with cutoff `k`
forces `k < 2^63`: the freshly written `checkpoint_<k>` is itself walked, and
its name parses only below the `int64_t` bound. -/
theorem deleteOutdatedCheckpoints_setF_bound (k : Nat) (cps : FileMap (List Tensor))
    (v : List Tensor) (cps' : FileMap (List Tensor))
    (hdel : deleteOutdatedCheckpoints k (setF cps (checkpointFileName k) v) = .ok cps') :
    k < 2 ^ 63 := by
  obtain ⟨i, hi⟩ := deleteOutdatedCheckpoints_parses _ _ _ hdel
    (checkpointFileName k, v) (setF_mem _ _ _)
  have hi' : getFileIndex (checkpointFileName k) checkpointPfx = .ok i := hi
  by_contra hcon
  rw [getFileIndex_checkpointFileName_cases, if_neg hcon] at hi'
  cases hi'

/-- C4: a successful `Save` leaves `chunk_index_` unchanged and writes the
checkpoint file `checkpoint_<chunk_index_>` — so the checkpoint's parsed index
equals (hence is `≤`) the index of the next chunk to be committed — and after
the pruning step no checkpoint whose parsed index is strictly less than the
current `chunk_index_` remains in the checkpoints directory. -/
theorem claim_C4_checkpoint_monotonicity (s s' : WriterState) (h : saveW s = .ok s') :
    s'.chunkIndex = s.chunkIndex ∧
    (checkpointFileName s.chunkIndex, [s.iterRemaining]) ∈ s'.checkpoints ∧
    getFileIndex (checkpointFileName s.chunkIndex) checkpointPfx = .ok s.chunkIndex ∧
    (∀ nc ∈ s'.checkpoints, ∀ i, getFileIndex nc.1 checkpointPfx = .ok i → s.chunkIndex ≤ i) := by
  unfold saveW at h
  cases hdel : deleteOutdatedCheckpoints s.chunkIndex
      (setF s.checkpoints (checkpointFileName s.chunkIndex) [s.iterRemaining]) with
  | error e => rw [hdel] at h; cases h
  | ok cps' =>
    rw [hdel] at h
    cases h
    have hbound := deleteOutdatedCheckpoints_setF_bound _ _ _ _ hdel
    refine ⟨rfl, ?_, getFileIndex_checkpointFileName s.chunkIndex hbound, ?_⟩
    · exact deleteOutdatedCheckpoints_keep _ _ _ hdel
        (checkpointFileName s.chunkIndex, [s.iterRemaining]) (setF_mem _ _ _)
        s.chunkIndex (getFileIndex_checkpointFileName s.chunkIndex hbound) (le_refl _)
    · intro nc hnc i hi
      exact (deleteOutdatedCheckpoints_sub _ _ _ hdel nc hnc).2 i hi

/-- Witness for C4 at a concrete save: `chunk_index_ = 2` with an old
`checkpoint_0` on disk; the save writes `checkpoint_2` and prunes
`checkpoint_0`. -/
theorem claim_C4_witness :
    ∃ s' : WriterState,
      saveW { chunkIndex := 2, checkpoints := [("checkpoint_0".data, [[5]])],
              iterRemaining := [7] } = .ok s' ∧
      s'.chunkIndex = 2 ∧
      (checkpointFileName 2, [([7] : Tensor)]) ∈ s'.checkpoints ∧
      (∀ nc ∈ s'.checkpoints, ∀ i, getFileIndex nc.1 checkpointPfx = .ok i → 2 ≤ i) := by
  have h := claim_C4_checkpoint_monotonicity
    { chunkIndex := 2, checkpoints := [("checkpoint_0".data, [[5]])], iterRemaining := [7] }
    { chunkIndex := 2, checkpoints := [("checkpoint_2".data, [[7]])], iterRemaining := [7] }
    (by decide)
  exact ⟨_, by decide, h.1, h.2.1, h.2.2.2⟩

/-! ### C2 — commit protocol -/

/-- `Save` only changes the checkpoints directory. -/
theorem saveW_ok_fields (s s1 : WriterState) (h : saveW s = .ok s1) :
    s1.chunkIndex = s.chunkIndex ∧ s1.chunkSizeBytes = s.chunkSizeBytes ∧
    s1.endOfSequence = s.endOfSequence ∧ s1.status = s.status ∧
    s1.committedChunks = s.committedChunks ∧
    s1.uncommittedChunks = s.uncommittedChunks ∧
    s1.iterRemaining = s.iterRemaining := by
  unfold saveW at h
  cases hdel : deleteOutdatedCheckpoints s.chunkIndex
      (setF s.checkpoints (checkpointFileName s.chunkIndex) [s.iterRemaining]) with
  | error e => rw [hdel] at h; cases h
  | ok cps' =>
    rw [hdel] at h
    cases h
    exact ⟨rfl, rfl, rfl, rfl, rfl, rfl, rfl⟩

/-- A successful `Save` leaves `checkpoint_<chunk_index_>` (holding the
serialized iterator) in the checkpoints directory. -/
theorem saveW_checkpoint_mem (s s1 : WriterState) (h : saveW s = .ok s1) :
    (checkpointFileName s.chunkIndex, [s.iterRemaining]) ∈ s1.checkpoints := by
  unfold saveW at h
  cases hdel : deleteOutdatedCheckpoints s.chunkIndex
      (setF s.checkpoints (checkpointFileName s.chunkIndex) [s.iterRemaining]) with
  | error e => rw [hdel] at h; cases h
  | ok cps' =>
    rw [hdel] at h
    cases h
    have hbound := deleteOutdatedCheckpoints_setF_bound _ _ _ _ hdel
    exact deleteOutdatedCheckpoints_keep _ _ _ hdel
      (checkpointFileName s.chunkIndex, [s.iterRemaining]) (setF_mem _ _ _)
      s.chunkIndex (getFileIndex_checkpointFileName s.chunkIndex hbound) (le_refl _)

/-- C2: in `CommitChunk`,
(1) if the source is not exhausted and status is ok (`ShouldSave()`), the
checkpoint is saved first: if that save fails, the commit fails with the save's
error and the rename is never attempted;
(2) whenever the commit succeeds, `chunk_index_` is incremented by exactly 1,
the chunk byte counter is reset to 0, and the chunk file's content has moved
from the uncommitted to the committed directory;
(3) a successful commit with `ShouldSave()` true leaves the checkpoint tagged
with the *pre-commit* `chunk_index_` on disk;
(4) when the source was exhausted mid-chunk, no checkpoint is saved (the
checkpoints directory is untouched), yet by (2) the final short chunk is still
committed and the counters updated. -/
theorem claim_C2_commit_protocol (s : WriterState) (saveRes renameRes : Except Status Unit) :
    (∀ e, shouldSave s = true → saveRes = .error e →
      commitChunkW saveRes renameRes s = .error e) ∧
    (∀ s', commitChunkW saveRes renameRes s = .ok s' →
      s'.chunkIndex = s.chunkIndex + 1 ∧ s'.chunkSizeBytes = 0 ∧
      ∃ c, lookupF s.uncommittedChunks (chunkFileName s.chunkIndex) = some c ∧
        lookupF s'.committedChunks (chunkFileName s.chunkIndex) = some c) ∧
    (∀ s', shouldSave s = true → commitChunkW saveRes renameRes s = .ok s' →
      (checkpointFileName s.chunkIndex, [s.iterRemaining]) ∈ s'.checkpoints) ∧
    (s.endOfSequence = true → ∀ s', commitChunkW saveRes renameRes s = .ok s' →
      s'.checkpoints = s.checkpoints) := by
  refine ⟨?_, ?_, ?_, ?_⟩
  · intro e hss hsr
    subst hsr
    simp [commitChunkW, hss]
  · intro s' h
    by_cases hss : shouldSave s = true
    · cases saveRes with
      | error e => simp only [commitChunkW, hss, if_true] at h; cases h
      | ok u =>
        cases hsv : saveW s with
        | error e => simp only [commitChunkW, hss, if_true, hsv] at h; cases h
        | ok s1 =>
          simp only [commitChunkW, hss, if_true, hsv] at h
          obtain ⟨f1, f2, f3, f4, f5, f6, f7⟩ := saveW_ok_fields s s1 hsv
          cases renameRes with
          | error e => cases h
          | ok u2 =>
            simp only [] at h
            cases hlk : lookupF s1.uncommittedChunks (chunkFileName s1.chunkIndex) with
            | none => rw [hlk] at h; cases h
            | some c =>
              rw [hlk] at h
              simp only [] at h
              cases h
              refine ⟨by simp [f1], rfl, c, ?_, ?_⟩
              · rw [← f6, ← f1]
                exact hlk
              · rw [← f1]
                exact lookupF_setF_self _ _ _
    · simp only [commitChunkW, hss, if_false] at h
      cases renameRes with
      | error e => cases h
      | ok u2 =>
        simp only [] at h
        cases hlk : lookupF s.uncommittedChunks (chunkFileName s.chunkIndex) with
        | none => rw [hlk] at h; cases h
        | some c =>
          rw [hlk] at h
          simp only [] at h
          cases h
          exact ⟨rfl, rfl, c, rfl, lookupF_setF_self _ _ _⟩
  · intro s' hss h
    cases saveRes with
    | error e => simp only [commitChunkW, hss, if_true] at h; cases h
    | ok u =>
      cases hsv : saveW s with
      | error e => simp only [commitChunkW, hss, if_true, hsv] at h; cases h
      | ok s1 =>
        simp only [commitChunkW, hss, if_true, hsv] at h
        cases renameRes with
        | error e => cases h
        | ok u2 =>
          simp only [] at h
          cases hlk : lookupF s1.uncommittedChunks (chunkFileName s1.chunkIndex) with
          | none => rw [hlk] at h; cases h
          | some c =>
            rw [hlk] at h
            simp only [] at h
            cases h
            exact saveW_checkpoint_mem s s1 hsv
  · intro heos s' h
    have hss : shouldSave s = false := by simp [shouldSave, heos]
    simp only [commitChunkW, hss, Bool.false_eq_true, if_false] at h
    cases renameRes with
    | error e => cases h
    | ok u2 =>
      simp only [] at h
      cases hlk : lookupF s.uncommittedChunks (chunkFileName s.chunkIndex) with
      | none => rw [hlk] at h; cases h
      | some c =>
        rw [hlk] at h
        simp only [] at h
        cases h
        rfl

/-- Witness for C2 at a concrete commit: `chunk_index_ = 1`, uncommitted
`chunk_1` present, old `checkpoint_0` on disk, source not exhausted: the commit
saves `checkpoint_1` first, renames `chunk_1` into the committed directory,
increments the index to 2 and resets the byte counter. -/
theorem claim_C2_witness :
    ∃ s' : WriterState,
      commitChunkW (.ok ()) (.ok ())
        { chunkIndex := 1, chunkSizeBytes := 17,
          uncommittedChunks := [("chunk_1".data, [9])],
          checkpoints := [("checkpoint_0".data, [[9, 8]])],
          iterRemaining := [8] } = .ok s' ∧
      s'.chunkIndex = 2 ∧ s'.chunkSizeBytes = 0 ∧
      (∃ c, lookupF [("chunk_1".data, [9])] (chunkFileName 1) = some c ∧
        lookupF s'.committedChunks (chunkFileName 1) = some c) ∧
      (checkpointFileName 1, [[8]]) ∈ s'.checkpoints := by
  have hok : commitChunkW (.ok ()) (.ok ())
      { chunkIndex := 1, chunkSizeBytes := 17,
        uncommittedChunks := [("chunk_1".data, [9])],
        checkpoints := [("checkpoint_0".data, [[9, 8]])],
        iterRemaining := [8] }
      = .ok { chunkIndex := 2, chunkSizeBytes := 0,
              committedChunks := [("chunk_1".data, [9])],
              uncommittedChunks := [],
              checkpoints := [("checkpoint_1".data, [[8]])],
              iterRemaining := [8] } := by decide
  have h := claim_C2_commit_protocol
    { chunkIndex := 1, chunkSizeBytes := 17,
      uncommittedChunks := [("chunk_1".data, [9])],
      checkpoints := [("checkpoint_0".data, [[9, 8]])],
      iterRemaining := [8] } (.ok ()) (.ok ())
  obtain ⟨h1, h2, h3⟩ := h.2.1 _ hok
  exact ⟨_, hok, h1, h2, h3, h.2.2.1 _ (by decide) hok⟩


/-! ### C1 — startup reconciliation -/

theorem setF_notin_map_fst {α : Type} :
    ∀ (m : FileMap α) (k0 : Name) (v : α) (n : Name),
      n ∉ m.map Prod.fst → n ≠ k0 → n ∉ (setF m k0 v).map Prod.fst := by
  intro m k0 v n
  induction m with
  | nil =>
    intro _ hne
    simp only [setF, List.map_cons, List.map_nil, List.mem_cons, List.not_mem_nil, or_false]
    exact hne
  | cons nw t ih =>
    obtain ⟨n0, w⟩ := nw
    intro hnm hne
    have h1 : n ≠ n0 := fun hcon => hnm (by rw [hcon, List.map_cons]; exact List.mem_cons_self _ _)
    have h2 : n ∉ t.map Prod.fst :=
      fun hcon => hnm (by rw [List.map_cons]; exact List.mem_cons_of_mem _ hcon)
    by_cases h : n0 = k0
    · simp only [setF, if_pos h, List.map_cons, List.mem_cons]
      intro hcon
      rcases hcon with hcon | hcon
      · exact hne hcon
      · exact h2 hcon
    · simp only [setF, if_neg h, List.map_cons, List.mem_cons]
      intro hcon
      rcases hcon with hcon | hcon
      · exact h1 hcon
      · exact ih h2 hne hcon

theorem setF_mem_other {α : Type} :
    ∀ (m : FileMap α) (k0 : Name) (v : α) (n : Name) (c : α),
      (n, c) ∈ m → n ≠ k0 → (n, c) ∈ setF m k0 v := by
  intro m k0 v n c
  induction m with
  | nil => intro hmem _; cases hmem
  | cons nw t ih =>
    obtain ⟨n0, w⟩ := nw
    intro hmem hne
    rcases List.mem_cons.mp hmem with heq | hmem'
    · injection heq with e1 e2
      subst e1
      subst e2
      simp [setF, fun hcon => hne hcon]
    · by_cases h : n0 = k0
      · subst h
        simp only [setF, if_pos rfl]
        exact List.mem_cons_of_mem _ hmem'
      · simp only [setF, if_neg h]
        exact List.mem_cons_of_mem _ (ih hmem' hne)

/-- Reconciliation adds no entry whose name is neither already committed nor
present in the uncommitted directory. -/
theorem syncCheckpointWithChunks_notin :
    ∀ (unc : FileMap (List Nat)) (k : Nat) (com com' : FileMap (List Nat)) (n : Name),
      syncCheckpointWithChunks k com unc = .ok com' →
      n ∉ com.map Prod.fst → n ∉ unc.map Prod.fst → n ∉ com'.map Prod.fst := by
  intro unc
  induction unc with
  | nil =>
    intro k com com' n h h1 _
    cases h
    exact h1
  | cons nc t ih =>
    obtain ⟨n0, c0⟩ := nc
    intro k com com' n h h1 h2
    simp only [syncCheckpointWithChunks] at h
    cases hp : getFileIndex n0 chunkPfx with
    | error e => rw [hp] at h; cases h
    | ok i =>
      rw [hp] at h
      simp only [] at h
      have hn0 : n ≠ n0 := fun hcon => h2 (by simp [hcon])
      have h2' : n ∉ t.map Prod.fst := fun hcon => h2 (by simp [hcon])
      by_cases hik : i ≤ k
      · rw [if_pos hik] at h
        exact ih k _ com' n h (setF_notin_map_fst com n0 c0 n h1 hn0) h2'
      · rw [if_neg hik] at h
        exact ih k com com' n h h1 h2'

/-- Reconciliation keeps committed entries whose name is not among the
uncommitted files. -/
theorem syncCheckpointWithChunks_preserved :
    ∀ (unc : FileMap (List Nat)) (k : Nat) (com com' : FileMap (List Nat)) (n : Name)
      (c : List Nat),
      syncCheckpointWithChunks k com unc = .ok com' →
      (n, c) ∈ com → n ∉ unc.map Prod.fst → (n, c) ∈ com' := by
  intro unc
  induction unc with
  | nil =>
    intro k com com' n c h h1 _
    cases h
    exact h1
  | cons nc t ih =>
    obtain ⟨n0, c0⟩ := nc
    intro k com com' n c h h1 h2
    simp only [syncCheckpointWithChunks] at h
    cases hp : getFileIndex n0 chunkPfx with
    | error e => rw [hp] at h; cases h
    | ok i =>
      rw [hp] at h
      simp only [] at h
      have hn0 : n ≠ n0 := fun hcon => h2 (by simp [hcon])
      have h2' : n ∉ t.map Prod.fst := fun hcon => h2 (by simp [hcon])
      by_cases hik : i ≤ k
      · rw [if_pos hik] at h
        exact ih k _ com' n c h (setF_mem_other com n0 c0 n c h1 hn0) h2'
      · rw [if_neg hik] at h
        exact ih k com com' n c h h1 h2'

/-- Every uncommitted chunk whose parsed index is `≤ k` is renamed into the
committed directory by reconciliation. -/
theorem syncCheckpointWithChunks_commits :
    ∀ (unc : FileMap (List Nat)) (k : Nat) (com com' : FileMap (List Nat)),
      syncCheckpointWithChunks k com unc = .ok com' →
      (unc.map Prod.fst).Nodup →
      ∀ n c i, (n, c) ∈ unc → getFileIndex n chunkPfx = .ok i → i ≤ k →
        (n, c) ∈ com' := by
  intro unc
  induction unc with
  | nil =>
    intro k com com' _ _ n c i hmem
    cases hmem
  | cons nc t ih =>
    obtain ⟨n0, c0⟩ := nc
    intro k com com' h hnd n c i hmem hpi hik
    have hnd' : n0 ∉ t.map Prod.fst ∧ (t.map Prod.fst).Nodup := by
      rw [List.map_cons, List.nodup_cons] at hnd
      exact hnd
    obtain ⟨hnd0, hndt⟩ := hnd'
    simp only [syncCheckpointWithChunks] at h
    cases hp : getFileIndex n0 chunkPfx with
    | error e => rw [hp] at h; cases h
    | ok i0 =>
      rw [hp] at h
      simp only [] at h
      rcases List.mem_cons.mp hmem with heq | hmem'
      · injection heq with e1 e2
        subst e1
        subst e2
        rw [hpi] at hp
        injection hp with e3
        subst e3
        rw [if_pos hik] at h
        exact syncCheckpointWithChunks_preserved t k _ com' n c h (setF_mem com n c) hnd0
      · by_cases hik0 : i0 ≤ k
        · rw [if_pos hik0] at h
          exact ih k _ com' h hndt n c i hmem' hpi hik
        · rw [if_neg hik0] at h
          exact ih k com com' h hndt n c i hmem' hpi hik

/-- Every uncommitted chunk whose parsed index is `> k` is deleted by
reconciliation: its name does not appear among the committed files afterwards
(unless a committed file already carried that name). -/
theorem syncCheckpointWithChunks_deletes :
    ∀ (unc : FileMap (List Nat)) (k : Nat) (com com' : FileMap (List Nat)),
      syncCheckpointWithChunks k com unc = .ok com' →
      (unc.map Prod.fst).Nodup →
      ∀ n c i, (n, c) ∈ unc → getFileIndex n chunkPfx = .ok i → k < i →
        n ∉ com.map Prod.fst → n ∉ com'.map Prod.fst := by
  intro unc
  induction unc with
  | nil =>
    intro k com com' _ _ n c i hmem
    cases hmem
  | cons nc t ih =>
    obtain ⟨n0, c0⟩ := nc
    intro k com com' h hnd n c i hmem hpi hik hcom
    have hnd' : n0 ∉ t.map Prod.fst ∧ (t.map Prod.fst).Nodup := by
      rw [List.map_cons, List.nodup_cons] at hnd
      exact hnd
    obtain ⟨hnd0, hndt⟩ := hnd'
    simp only [syncCheckpointWithChunks] at h
    cases hp : getFileIndex n0 chunkPfx with
    | error e => rw [hp] at h; cases h
    | ok i0 =>
      rw [hp] at h
      simp only [] at h
      rcases List.mem_cons.mp hmem with heq | hmem'
      · injection heq with e1 e2
        subst e1
        subst e2
        rw [hpi] at hp
        injection hp with e3
        subst e3
        rw [if_neg (by omega : ¬ i ≤ k)] at h
        exact syncCheckpointWithChunks_notin t k com com' n h hcom hnd0
      · have hnmem : n ∈ t.map Prod.fst := List.mem_map_of_mem Prod.fst hmem'
        have hn0 : n ≠ n0 := fun hcon => hnd0 (hcon ▸ hnmem)
        by_cases hik0 : i0 ≤ k
        · rw [if_pos hik0] at h
          exact ih k _ com' h hndt n c i hmem' hpi hik
            (setF_notin_map_fst com n0 c0 n hcom hn0)
        · rw [if_neg hik0] at h
          exact ih k com com' h hndt n c i hmem' hpi hik hcom

/-- C1: on startup recovery with latest checkpoint index `k`, `Restore`
reconciles the uncommitted-chunks directory against `k`: every uncommitted file
whose parsed index `i` satisfies `i ≤ k` is renamed into the committed
directory, every file with `i > k` is deleted (it ends up neither uncommitted
nor committed), the uncommitted directory is left empty, and the writer resumes
with `chunk_index_ = k + 1`. -/
theorem claim_C1_reconciliation (s s' : WriterState) (k : Nat)
    (hk : lastCheckpointIndexW (s.checkpoints.map Prod.fst) = .ok k)
    (hres : restoreW s = .ok s')
    (hnd : (s.uncommittedChunks.map Prod.fst).Nodup) :
    s'.chunkIndex = k + 1 ∧
    s'.uncommittedChunks = [] ∧
    (∀ n c i, (n, c) ∈ s.uncommittedChunks → getFileIndex n chunkPfx = .ok i →
      (i ≤ k → (n, c) ∈ s'.committedChunks) ∧
      (k < i → n ∉ s.committedChunks.map Prod.fst →
        n ∉ s'.committedChunks.map Prod.fst)) := by
  simp only [restoreW, hk] at hres
  cases hlk : lookupF s.checkpoints (checkpointFileName k) with
  | none => rw [hlk] at hres; cases hres
  | some ts =>
    rw [hlk] at hres
    simp only [] at hres
    cases ts with
    | nil => cases hres
    | cons t rest =>
      cases rest with
      | cons t2 r2 => cases hres
      | nil =>
        simp only [] at hres
        cases hsy : syncCheckpointWithChunks k s.committedChunks s.uncommittedChunks with
        | error e => rw [hsy] at hres; cases hres
        | ok com' =>
          rw [hsy] at hres
          simp only [] at hres
          cases hres
          refine ⟨rfl, rfl, ?_⟩
          intro n c i hmem hpi
          constructor
          · intro hik
            exact syncCheckpointWithChunks_commits _ k _ com' hsy hnd n c i hmem hpi hik
          · intro hik hcom
            exact syncCheckpointWithChunks_deletes _ k _ com' hsy hnd n c i hmem hpi hik hcom

/-- Witness for C1: the spec's concrete scenario — `checkpoint_5` present,
uncommitted `chunk_3`, `chunk_5`, `chunk_7`: `chunk_3` and `chunk_5` are
committed, `chunk_7` is deleted, and the resumed `chunk_index` is 6. -/
theorem claim_C1_witness :
    ∃ s' : WriterState,
      restoreW { checkpoints := [("checkpoint_5".data, [[42]])],
                 uncommittedChunks := [("chunk_3".data, [3]), ("chunk_5".data, [5]),
                   ("chunk_7".data, [7])] } = .ok s' ∧
      s'.chunkIndex = 6 ∧ s'.uncommittedChunks = [] ∧
      ("chunk_3".data, [3]) ∈ s'.committedChunks ∧
      ("chunk_5".data, [5]) ∈ s'.committedChunks ∧
      "chunk_7".data ∉ s'.committedChunks.map Prod.fst := by
  have hres : restoreW
      { checkpoints := [("checkpoint_5".data, [[42]])],
        uncommittedChunks := [("chunk_3".data, [3]), ("chunk_5".data, [5]),
          ("chunk_7".data, [7])] }
      = .ok { chunkIndex := 6,
              committedChunks := [("chunk_3".data, [3]), ("chunk_5".data, [5])],
              uncommittedChunks := [],
              checkpoints := [("checkpoint_5".data, [[42]])],
              iterRemaining := [42] } := by decide
  have h := claim_C1_reconciliation
    { checkpoints := [("checkpoint_5".data, [[42]])],
      uncommittedChunks := [("chunk_3".data, [3]), ("chunk_5".data, [5]),
        ("chunk_7".data, [7])] }
    { chunkIndex := 6,
      committedChunks := [("chunk_3".data, [3]), ("chunk_5".data, [5])],
      uncommittedChunks := [],
      checkpoints := [("checkpoint_5".data, [[42]])],
      iterRemaining := [42] }
    5 (by decide) hres (by decide)
  refine ⟨_, hres, h.1, h.2.1, ?_, ?_, ?_⟩
  · exact (h.2.2 "chunk_3".data [3] 3 (by decide) (by decide)).1 (by norm_num)
  · exact (h.2.2 "chunk_5".data [5] 5 (by simp) (by decide)).1 (by norm_num)
  · exact (h.2.2 "chunk_7".data [7] 7 (by simp) (by decide)).2 (by norm_num) (by decide)

/-! ### C3 — crash-resume equivalence

For the crash-resume claim the writer is modeled at *index* granularity: every
file in the three directories is created by the writer itself with a name
`chunk_<i>` or `checkpoint_<i>`, and `getFileIndex` recovers exactly `i` from
such a name (`getFileIndex_chunkFileName`, `getFileIndex_checkpointFileName`;
these hold for every `i < 2^63`, and a writer-generated index `i` counts `i`
committed chunks, so it never approaches the `int64_t` bound), so directories
are keyed directly by the index.  File contents are the list of
elements written (for chunks) and the saved iterator position, i.e. the
remaining-element list (for checkpoints).  The run is pure: the element source
and the filesystem do not fail, and no cancel is issued, matching the claim's
premise of a run that only crashes.  The run emits a `Disk` snapshot after
every filesystem mutation, and a crash is modeled by restarting a fresh writer
(fresh iterator over the same elements) from any snapshot in the trace. -/

/-- The persistent state: the three directories, keyed by chunk/checkpoint index. -/
structure Disk where
  committed : List (Nat × List Nat)
  uncommitted : List (Nat × List Nat)
  checkpoints : List (Nat × List Nat)
deriving DecidableEq, Repr

/-- Index-keyed lookup (reading a file by its name). -/
def lookA {α : Type} : List (Nat × α) → Nat → Option α
  | [], _ => none
  | (k', v) :: t, k => if k' = k then some v else lookA t k

/-- Index-keyed create-or-atomic-overwrite (writing or renaming onto a name). -/
def setA {α : Type} : List (Nat × α) → Nat → α → List (Nat × α)
  | [], k, v => [(k, v)]
  | (k', w) :: t, k, v => if k' = k then (k, v) :: t else (k', w) :: setA t k v

/-- Index-keyed delete. -/
def delA {α : Type} : List (Nat × α) → Nat → List (Nat × α)
  | [], _ => []
  | (k', w) :: t, k => if k' = k then delA t k else (k', w) :: delA t k

/-- The maximum key of a directory (`LastCheckpointIndex` at index granularity:
the running max over the parsed filenames; `none` is the `NotFound` case). -/
def maxKeyA {α : Type} : List (Nat × α) → Option Nat
  | [] => none
  | (k, _) :: t =>
    match maxKeyA t with
    | none => some k
    | some m => some (max k m)

/-- Result of the record loop: emitted disk snapshots, final disk, remaining
elements, `end_of_sequence_`. -/
structure RecRes where
  tr : List Disk
  d : Disk
  rem : List Nat
  eos : Bool
deriving DecidableEq, Repr

/-- Result of the chunk loop: emitted disk snapshots, final disk, remaining
elements, final `chunk_index_`, `end_of_sequence_`. -/
structure LoopRes where
  tr : List Disk
  d : Disk
  rem : List Nat
  idx : Nat
  eos : Bool
deriving DecidableEq, Repr

/-- The record loop of `WriteChunk` (`while (ShouldWriteRecord()) WriteRecord()`)
writing chunk `i`: while the byte count is below the max and the source is not
exhausted, pull the next element and append it to the uncommitted chunk file
(one disk snapshot per appended record); an exhausted source just closes the
file.  Status stays ok throughout a pure run. -/
def writeRecT (maxSz : Nat) (sz : Nat → Nat) (i : Nat) :
    List Nat → Nat → Disk → RecRes
  | rem, csz, d =>
    if csz < maxSz then
      match rem with
      | [] => ⟨[], d, [], true⟩
      | e :: rest =>
        let d1 : Disk := { d with
          uncommitted := setA d.uncommitted i ((lookA d.uncommitted i).getD [] ++ [e]) }
        let r := writeRecT maxSz sz i rest (csz + sz e) d1
        ⟨d1 :: r.tr, r.d, r.rem, r.eos⟩
    else ⟨[], d, rem, false⟩

/-- `Env::RenameFile(uncommitted/chunk_<i>, committed/chunk_<i>)`. -/
def renameChunkT (i : Nat) (d : Disk) : Disk :=
  { d with
    committed := setA d.committed i ((lookA d.uncommitted i).getD [])
    uncommitted := delA d.uncommitted i }

/-- `CommitChunk` at index granularity (`ShouldSave()` is `!end_of_sequence_`
in a pure run): if a checkpoint is due, first write `checkpoint_<i>` holding
the current iterator position (temp write + atomic rename collapsed into one
atomic update), then prune checkpoints with index `< i`, then rename the chunk;
one disk snapshot per filesystem operation. -/
def commitT (i : Nat) (rem : List Nat) (eos : Bool) (d : Disk) : List Disk × Disk :=
  if eos then
    ([renameChunkT i d], renameChunkT i d)
  else
    let d1 : Disk := { d with checkpoints := setA d.checkpoints i rem }
    let d2 : Disk := { d1 with checkpoints := d1.checkpoints.filter (fun e => decide (i ≤ e.1)) }
    ([d1, d2, renameChunkT i d2], renameChunkT i d2)

/-- `TFRecordWriter::Initialize` for chunk `i`: creates the (empty) uncommitted
chunk file. -/
def chunkStartD (i : Nat) (d : Disk) : Disk :=
  { d with uncommitted := setA d.uncommitted i [] }

/-- The chunk loop of `WriteSnapshotFn` (`while (ShouldWriteChunk()) WriteChunk()`):
start a chunk file, run the record loop, commit.  `fuel` bounds the number of
chunk iterations (the C++ loop needs no bound; every theorem supplies enough
fuel for the loop to reach `end_of_sequence_`). -/
def runLoopT (maxSz : Nat) (sz : Nat → Nat) :
    Nat → List Nat → Nat → Bool → Disk → LoopRes
  | 0, rem, i, eos, d => ⟨[], d, rem, i, eos⟩
  | fuel + 1, rem, i, eos, d =>
    if eos then ⟨[], d, rem, i, eos⟩
    else
      let d0 := chunkStartD i d
      let r1 := writeRecT maxSz sz i rem 0 d0
      let r2 := commitT i r1.rem r1.eos r1.d
      let r3 := runLoopT maxSz sz fuel r1.rem (i + 1) r1.eos r2.2
      ⟨d0 :: r1.tr ++ r2.1 ++ r3.tr, r3.d, r3.rem, r3.idx, r3.eos⟩

/-- The reconciliation walk of `SyncCheckpointWithChunks` at index granularity:
each uncommitted chunk with index `≤ k` is renamed into the committed
directory, the others are deleted. -/
def syncA (k : Nat) : List (Nat × List Nat) → List (Nat × List Nat) → List (Nat × List Nat)
  | com, [] => com
  | com, (i, c) :: t => if i ≤ k then syncA k (setA com i c) t else syncA k com t

/-- `Restore` of a freshly restarted writer whose fresh iterator holds `xs`:
no checkpoint means nothing to restore (`chunk_index_` stays 0 and the iterator
stays at the start); otherwise restore the iterator from the latest checkpoint
`k`, reconcile the uncommitted chunks against `k`, and set
`chunk_index_ = k + 1`.  Returns `none` if the checkpoint file for the maximal
index is unreadable (impossible in reachable states). -/
def restoreT (xs : List Nat) (d : Disk) : Option (List Nat × Nat × Disk) :=
  match maxKeyA d.checkpoints with
  | none => some (xs, 0, d)
  | some k =>
    match lookA d.checkpoints k with
    | none => none
    | some saved =>
      some (saved, k + 1,
        { d with committed := syncA k d.committed d.uncommitted, uncommitted := [] })

/-- `WriteSnapshotFn` of a restarted writer: restore from the disk, then run the
chunk loop. -/
def runFromDiskT (maxSz : Nat) (sz : Nat → Nat) (fuel : Nat) (xs : List Nat) (d : Disk) :
    Option LoopRes :=
  (restoreT xs d).map (fun p => runLoopT maxSz sz fuel p.1 p.2.1 false p.2.2)

/-- The elements pulled by the record loop, as a function of the remaining
elements and the starting byte count (the loop is deterministic). -/
def recPulled (maxSz : Nat) (sz : Nat → Nat) : List Nat → Nat → List Nat
  | rem, csz =>
    if csz < maxSz then
      match rem with
      | [] => []
      | e :: rest => e :: recPulled maxSz sz rest (csz + sz e)
    else []

/-- The elements left after the record loop. -/
def recRem (maxSz : Nat) (sz : Nat → Nat) : List Nat → Nat → List Nat
  | rem, csz =>
    if csz < maxSz then
      match rem with
      | [] => []
      | e :: rest => recRem maxSz sz rest (csz + sz e)
    else rem

/-- Whether the record loop observed end-of-sequence. -/
def recEos (maxSz : Nat) (sz : Nat → Nat) : List Nat → Nat → Bool
  | rem, csz =>
    if csz < maxSz then
      match rem with
      | [] => true
      | e :: rest => recEos maxSz sz rest (csz + sz e)
    else false

theorem lookA_setA_self {α : Type} : ∀ (m : List (Nat × α)) (k : Nat) (v : α),
    lookA (setA m k v) k = some v := by
  intro m k v
  induction m with
  | nil => simp [setA, lookA]
  | cons kw t ih =>
    obtain ⟨k', w⟩ := kw
    by_cases h : k' = k <;> simp [setA, lookA, h, ih]

theorem setA_setA {α : Type} : ∀ (m : List (Nat × α)) (k : Nat) (v w : α),
    setA (setA m k v) k w = setA m k w := by
  intro m k v w
  induction m with
  | nil => simp [setA]
  | cons kw t ih =>
    obtain ⟨k', x⟩ := kw
    by_cases h : k' = k
    · simp [setA, h]
    · simp [setA, h, ih]

theorem setA_append_fresh {α : Type} : ∀ (m : List (Nat × α)) (k : Nat) (v : α),
    (∀ p ∈ m, p.1 ≠ k) → setA m k v = m ++ [(k, v)] := by
  intro m k v
  induction m with
  | nil => intro _; rfl
  | cons kw t ih =>
    obtain ⟨k', w⟩ := kw
    intro hfr
    have h : k' ≠ k := hfr (k', w) (by simp)
    simp only [setA, if_neg h, List.cons_append, List.cons.injEq, true_and]
    exact ih (fun p hp => hfr p (by simp [hp]))

theorem setA_mem_or {α : Type} : ∀ (m : List (Nat × α)) (k : Nat) (v : α) (p : Nat × α),
    p ∈ setA m k v → p ∈ m ∨ p = (k, v) := by
  intro m k v p
  induction m with
  | nil =>
    intro h
    simp only [setA, List.mem_singleton] at h
    exact Or.inr h
  | cons kw t ih =>
    obtain ⟨k', w⟩ := kw
    intro h
    by_cases hk : k' = k
    · simp only [setA, if_pos hk, List.mem_cons] at h
      rcases h with h | h
      · exact Or.inr h
      · exact Or.inl (List.mem_cons_of_mem _ h)
    · simp only [setA, if_neg hk, List.mem_cons] at h
      rcases h with h | h
      · exact Or.inl (by simp [h])
      · rcases ih h with h' | h'
        · exact Or.inl (List.mem_cons_of_mem _ h')
        · exact Or.inr h'

/-- The record loop over a directory holding exactly the fresh chunk file `i`:
it appends exactly `recPulled` to the file, leaves `recRem`, reports `recEos`,
touches neither the committed nor the checkpoints directory, and every emitted
snapshot differs from the start state only in the contents of file `i`. -/
theorem writeRecT_run (maxSz : Nat) (sz : Nat → Nat) (i : Nat) :
    ∀ (rem : List Nat) (csz : Nat) (C cp : List (Nat × List Nat)) (cur : List Nat),
      (writeRecT maxSz sz i rem csz ⟨C, [(i, cur)], cp⟩).d
          = ⟨C, [(i, cur ++ recPulled maxSz sz rem csz)], cp⟩ ∧
      (writeRecT maxSz sz i rem csz ⟨C, [(i, cur)], cp⟩).rem = recRem maxSz sz rem csz ∧
      (writeRecT maxSz sz i rem csz ⟨C, [(i, cur)], cp⟩).eos = recEos maxSz sz rem csz ∧
      ∀ dx ∈ (writeRecT maxSz sz i rem csz ⟨C, [(i, cur)], cp⟩).tr,
        ∃ x, dx = ⟨C, [(i, x)], cp⟩ := by
  intro rem
  induction rem with
  | nil =>
    intro csz C cp cur
    by_cases h : csz < maxSz <;>
      simp [writeRecT, recPulled, recRem, recEos, h]
  | cons e rest ih =>
    intro csz C cp cur
    by_cases h : csz < maxSz
    · have hd1 : setA [(i, cur)] i ((lookA [(i, cur)] i).getD [] ++ [e]) = [(i, cur ++ [e])] := by
        simp [setA, lookA]
      obtain ⟨ih1, ih2, ih3, ih4⟩ := ih (csz + sz e) C cp (cur ++ [e])
      refine ⟨?_, ?_, ?_, ?_⟩
      · simp only [writeRecT, if_pos h, hd1]
        rw [ih1]
        simp [recPulled, h]
      · simp only [writeRecT, if_pos h, hd1]
        rw [ih2]
        simp [recRem, h]
      · simp only [writeRecT, if_pos h, hd1]
        rw [ih3]
        simp [recEos, h]
      · simp only [writeRecT, if_pos h, hd1]
        intro dx hdx
        rcases List.mem_cons.mp hdx with hdx | hdx
        · exact ⟨cur ++ [e], hdx⟩
        · exact ih4 dx hdx
    · simp [writeRecT, recPulled, recRem, recEos, h]

/-- The record loop over an arbitrary directory (the chunk file `i` exists):
same outputs, and the loop only touches the contents of file `i`. -/
theorem writeRecT_gen (maxSz : Nat) (sz : Nat → Nat) (i : Nat) :
    ∀ (rem : List Nat) (csz : Nat) (d : Disk) (cur : List Nat),
      lookA d.uncommitted i = some cur →
      (writeRecT maxSz sz i rem csz d).rem = recRem maxSz sz rem csz ∧
      (writeRecT maxSz sz i rem csz d).eos = recEos maxSz sz rem csz ∧
      (writeRecT maxSz sz i rem csz d).d.committed = d.committed ∧
      (writeRecT maxSz sz i rem csz d).d.checkpoints = d.checkpoints ∧
      lookA (writeRecT maxSz sz i rem csz d).d.uncommitted i
        = some (cur ++ recPulled maxSz sz rem csz) := by
  intro rem
  induction rem with
  | nil =>
    intro csz d cur hcur
    by_cases h : csz < maxSz <;>
      simp [writeRecT, recPulled, recRem, recEos, h, hcur]
  | cons e rest ih =>
    intro csz d cur hcur
    by_cases h : csz < maxSz
    · have hlook : (lookA d.uncommitted i).getD [] ++ [e] = cur ++ [e] := by rw [hcur]; rfl
      have hnext : lookA (setA d.uncommitted i (cur ++ [e])) i = some (cur ++ [e]) :=
        lookA_setA_self _ _ _
      obtain ⟨ih1, ih2, ih3, ih4, ih5⟩ := ih (csz + sz e)
        { d with uncommitted := setA d.uncommitted i (cur ++ [e]) } (cur ++ [e]) hnext
      refine ⟨?_, ?_, ?_, ?_, ?_⟩
      · simp only [writeRecT, if_pos h, hlook]
        rw [ih1]
        simp [recRem, h]
      · simp only [writeRecT, if_pos h, hlook]
        rw [ih2]
        simp [recEos, h]
      · simp only [writeRecT, if_pos h, hlook]
        rw [ih3]
      · simp only [writeRecT, if_pos h, hlook]
        rw [ih4]
      · simp only [writeRecT, if_pos h, hlook]
        rw [ih5]
        simp [recPulled, h, List.append_assoc]
    · simp [writeRecT, recPulled, recRem, recEos, h, hcur]

theorem recPulled_recRem_append (maxSz : Nat) (sz : Nat → Nat) :
    ∀ (rem : List Nat) (csz : Nat),
      recPulled maxSz sz rem csz ++ recRem maxSz sz rem csz = rem := by
  intro rem
  induction rem with
  | nil =>
    intro csz
    by_cases h : csz < maxSz <;> simp [recPulled, recRem, h]
  | cons e rest ih =>
    intro csz
    by_cases h : csz < maxSz <;> simp [recPulled, recRem, h, ih]

theorem recRem_length_le (maxSz : Nat) (sz : Nat → Nat) (rem : List Nat) (csz : Nat) :
    (recRem maxSz sz rem csz).length ≤ rem.length := by
  have := congrArg List.length (recPulled_recRem_append maxSz sz rem csz)
  simp only [List.length_append] at this
  omega

theorem recRem_lt (maxSz : Nat) (sz : Nat → Nat) (e : Nat) (rest : List Nat) (csz : Nat)
    (h : csz < maxSz) :
    (recRem maxSz sz (e :: rest) csz).length < (e :: rest).length := by
  simp only [recRem, if_pos h]
  exact lt_of_le_of_lt (recRem_length_le maxSz sz rest (csz + sz e)) (by simp)

theorem recEos_nil (maxSz : Nat) (sz : Nat → Nat) (csz : Nat) (h : csz < maxSz) :
    recEos maxSz sz [] csz = true := by
  simp [recEos, h]

theorem recEos_true_recRem_nil (maxSz : Nat) (sz : Nat → Nat) :
    ∀ (rem : List Nat) (csz : Nat),
      recEos maxSz sz rem csz = true → recRem maxSz sz rem csz = [] := by
  intro rem
  induction rem with
  | nil =>
    intro csz _
    by_cases h : csz < maxSz <;> simp [recRem, h]
  | cons e rest ih =>
    intro csz heos
    by_cases h : csz < maxSz
    · simp only [recRem, if_pos h]
      simp only [recEos, if_pos h] at heos
      exact ih _ heos
    · simp only [recEos, if_neg h] at heos
      cases heos

theorem runLoopT_eos (maxSz : Nat) (sz : Nat → Nat) :
    ∀ (fuel : Nat) (rem : List Nat) (i : Nat) (d : Disk),
      runLoopT maxSz sz fuel rem i true d = ⟨[], d, rem, i, true⟩ := by
  intro fuel rem i d
  cases fuel <;> simp [runLoopT]

theorem runLoopT_succ_false (maxSz : Nat) (sz : Nat → Nat) (fuel : Nat) (rem : List Nat)
    (i : Nat) (d : Disk) (r1 : RecRes) (r2 : List Disk × Disk)
    (h1 : writeRecT maxSz sz i rem 0 (chunkStartD i d) = r1)
    (h2 : commitT i r1.rem r1.eos r1.d = r2) :
    runLoopT maxSz sz (fuel + 1) rem i false d
      = ⟨chunkStartD i d :: r1.tr ++ r2.1
           ++ (runLoopT maxSz sz fuel r1.rem (i + 1) r1.eos r2.2).tr,
         (runLoopT maxSz sz fuel r1.rem (i + 1) r1.eos r2.2).d,
         (runLoopT maxSz sz fuel r1.rem (i + 1) r1.eos r2.2).rem,
         (runLoopT maxSz sz fuel r1.rem (i + 1) r1.eos r2.2).idx,
         (runLoopT maxSz sz fuel r1.rem (i + 1) r1.eos r2.2).eos⟩ := by
  subst h1
  subst h2
  simp [runLoopT]

theorem restoreT_nil_cp (xs : List Nat) (C U : List (Nat × List Nat)) :
    restoreT xs ⟨C, U, []⟩ = some (xs, 0, ⟨C, U, []⟩) := rfl

theorem restoreT_single_cp (xs r0 : List Nat) (C U : List (Nat × List Nat)) (j : Nat) :
    restoreT xs ⟨C, U, [(j, r0)]⟩
      = some (r0, j + 1, ⟨syncA j C U, [], [(j, r0)]⟩) := by
  simp [restoreT, maxKeyA, lookA]

theorem restoreT_pair_cp (xs r0 r1 : List Nat) (C U : List (Nat × List Nat)) (j k : Nat)
    (h : j < k) :
    restoreT xs ⟨C, U, [(j, r0), (k, r1)]⟩
      = some (r1, k + 1, ⟨syncA k C U, [], [(j, r0), (k, r1)]⟩) := by
  have hmax : max j k = k := max_eq_right h.le
  have hne : j ≠ k := Nat.ne_of_lt h
  simp [restoreT, maxKeyA, lookA, hmax, hne]

theorem syncA_single_le (k i : Nat) (com : List (Nat × List Nat)) (c : List Nat) (h : i ≤ k) :
    syncA k com [(i, c)] = setA com i c := by
  simp [syncA, h]

theorem syncA_single_gt (k i : Nat) (com : List (Nat × List Nat)) (c : List Nat) (h : k < i) :
    syncA k com [(i, c)] = com := by
  simp only [syncA, if_neg (by omega : ¬ i ≤ k)]

theorem commitT_snd_committed (i : Nat) (rem : List Nat) (eos : Bool) (d : Disk) :
    (commitT i rem eos d).2.committed
      = setA d.committed i ((lookA d.uncommitted i).getD []) := by
  cases eos <;> simp [commitT, renameChunkT]

theorem commitT_snd_uncommitted (i : Nat) (rem : List Nat) (eos : Bool) (d : Disk) :
    (commitT i rem eos d).2.uncommitted = delA d.uncommitted i := by
  cases eos <;> simp [commitT, renameChunkT]

/-- The committed directory produced by the chunk loop depends on the starting
disk only through its committed directory (the loop overwrites the chunk file
it is writing, reads back exactly what it wrote, and otherwise only touches
the checkpoints directory). -/
theorem runLoopT_congr (maxSz : Nat) (sz : Nat → Nat) :
    ∀ (fuel : Nat) (rem : List Nat) (i : Nat) (eos : Bool) (d d' : Disk),
      d.committed = d'.committed →
      (runLoopT maxSz sz fuel rem i eos d).d.committed
        = (runLoopT maxSz sz fuel rem i eos d').d.committed := by
  intro fuel
  induction fuel with
  | zero =>
    intro rem i eos d d' h
    simpa [runLoopT] using h
  | succ f ih =>
    intro rem i eos d d' h
    cases eos with
    | true => simpa [runLoopT_eos] using h
    | false =>
      have hc : lookA (chunkStartD i d).uncommitted i = some [] := lookA_setA_self _ _ _
      have hc' : lookA (chunkStartD i d').uncommitted i = some [] := lookA_setA_self _ _ _
      obtain ⟨g1, g2, g3, g4, g5⟩ := writeRecT_gen maxSz sz i rem 0 (chunkStartD i d) [] hc
      obtain ⟨g1', g2', g3', g4', g5'⟩ := writeRecT_gen maxSz sz i rem 0 (chunkStartD i d') [] hc'
      rw [runLoopT_succ_false maxSz sz f rem i d _ _ rfl rfl,
          runLoopT_succ_false maxSz sz f rem i d' _ _ rfl rfl]
      simp only []
      rw [g1, g2, g1', g2']
      apply ih
      rw [commitT_snd_committed, commitT_snd_committed, g5, g5']
      simp only [Option.getD_some]
      rw [g3, g3']
      simp only [chunkStartD]
      rw [h]

/-- Any two sufficient fuel amounts give the same run. -/
theorem runLoopT_fuel_irrel (maxSz : Nat) (sz : Nat → Nat) (hmax : 0 < maxSz) :
    ∀ (f g : Nat) (rem : List Nat) (i : Nat) (d : Disk),
      rem.length + 1 ≤ f → rem.length + 1 ≤ g →
      runLoopT maxSz sz f rem i false d = runLoopT maxSz sz g rem i false d := by
  intro f
  induction f with
  | zero =>
    intro g rem i d hf
    omega
  | succ f' ih =>
    intro g rem i d hf hg
    cases g with
    | zero => omega
    | succ g' =>
      rw [runLoopT_succ_false maxSz sz f' rem i d _ _ rfl rfl,
          runLoopT_succ_false maxSz sz g' rem i d _ _ rfl rfl]
      have hc : lookA (chunkStartD i d).uncommitted i = some [] := lookA_setA_self _ _ _
      obtain ⟨g1, g2, g3, g4, g5⟩ := writeRecT_gen maxSz sz i rem 0 (chunkStartD i d) [] hc
      by_cases heos : (writeRecT maxSz sz i rem 0 (chunkStartD i d)).eos = true
      · rw [heos, runLoopT_eos, runLoopT_eos]
      · have heos' : (writeRecT maxSz sz i rem 0 (chunkStartD i d)).eos = false := by
          revert heos
          cases (writeRecT maxSz sz i rem 0 (chunkStartD i d)).eos <;> simp
        cases rem with
        | nil =>
          rw [g2, recEos_nil maxSz sz 0 hmax] at heos'
          cases heos'
        | cons e rest =>
          have hlt : (recRem maxSz sz (e :: rest) 0).length < (e :: rest).length :=
            recRem_lt maxSz sz e rest 0 hmax
          have hf' : (e :: rest).length ≤ f' := by omega
          have hg' : (e :: rest).length ≤ g' := by omega
          rw [heos', g1]
          rw [ih g' (recRem maxSz sz (e :: rest) 0) (i + 1) _ (by omega) (by omega)]

/-- The chunk loop appends its committed chunks after the starting committed
directory, and the elements in those chunks (in order) are exactly the elements
it consumed. -/
theorem runLoopT_partition (maxSz : Nat) (sz : Nat → Nat) :
    ∀ (fuel : Nat) (rem : List Nat) (i : Nat) (d : Disk),
      (∀ p ∈ d.committed, p.1 < i) →
      ∃ New, (runLoopT maxSz sz fuel rem i false d).d.committed = d.committed ++ New ∧
        ((New.map Prod.snd).flatten ++ (runLoopT maxSz sz fuel rem i false d).rem = rem) := by
  intro fuel
  induction fuel with
  | zero =>
    intro rem i d _
    exact ⟨[], by simp [runLoopT], by simp [runLoopT]⟩
  | succ f ih =>
    intro rem i d hkey
    have hc : lookA (chunkStartD i d).uncommitted i = some [] := lookA_setA_self _ _ _
    obtain ⟨g1, g2, g3, g4, g5⟩ := writeRecT_gen maxSz sz i rem 0 (chunkStartD i d) [] hc
    have hcom2 : (commitT i (writeRecT maxSz sz i rem 0 (chunkStartD i d)).rem
          (writeRecT maxSz sz i rem 0 (chunkStartD i d)).eos
          (writeRecT maxSz sz i rem 0 (chunkStartD i d)).d).2.committed
        = d.committed ++ [(i, recPulled maxSz sz rem 0)] := by
      rw [commitT_snd_committed, g5]
      simp only [Option.getD_some, List.nil_append]
      rw [g3]
      simp only [chunkStartD]
      exact setA_append_fresh _ _ _ (fun p hp => Nat.ne_of_lt (hkey p hp))
    rw [runLoopT_succ_false maxSz sz f rem i d _ _ rfl rfl]
    simp only []
    by_cases heos : (writeRecT maxSz sz i rem 0 (chunkStartD i d)).eos = true
    · rw [heos] at hcom2
      rw [heos, runLoopT_eos]
      simp only []
      refine ⟨[(i, recPulled maxSz sz rem 0)], hcom2, ?_⟩
      rw [g1]
      simp only [List.map_cons, List.map_nil, List.flatten_cons, List.flatten_nil,
        List.append_nil]
      exact recPulled_recRem_append maxSz sz rem 0
    · have heos' : (writeRecT maxSz sz i rem 0 (chunkStartD i d)).eos = false := by
        revert heos
        cases (writeRecT maxSz sz i rem 0 (chunkStartD i d)).eos <;> simp
      rw [heos'] at hcom2
      rw [heos']
      have hkey2 : ∀ p ∈ (commitT i (writeRecT maxSz sz i rem 0 (chunkStartD i d)).rem
          false (writeRecT maxSz sz i rem 0 (chunkStartD i d)).d).2.committed, p.1 < i + 1 := by
        intro p hp
        rw [hcom2] at hp
        rcases List.mem_append.mp hp with hp | hp
        · exact Nat.lt_succ_of_lt (hkey p hp)
        · rw [List.mem_singleton] at hp
          rw [hp]
          exact Nat.lt_succ_self i
      obtain ⟨New, hN1, hN2⟩ := ih (writeRecT maxSz sz i rem 0 (chunkStartD i d)).rem (i + 1)
        _ hkey2
      refine ⟨(i, recPulled maxSz sz rem 0) :: New, ?_, ?_⟩
      · rw [hN1, hcom2]
        simp [List.append_assoc]
      · simp only [List.map_cons, List.flatten_cons, List.append_assoc]
        rw [hN2, g1]
        exact recPulled_recRem_append maxSz sz rem 0

theorem commitT_eos_singleton (i : Nat) (rm P : List Nat) (C cp : List (Nat × List Nat)) :
    commitT i rm true ⟨C, [(i, P)], cp⟩
      = ([⟨setA C i P, [], cp⟩], ⟨setA C i P, [], cp⟩) := by
  simp [commitT, renameChunkT, lookA, delA]

theorem commitT_save_nil (i : Nat) (rm P : List Nat) (C : List (Nat × List Nat)) :
    commitT i rm false ⟨C, [(i, P)], []⟩
      = ([⟨C, [(i, P)], [(i, rm)]⟩, ⟨C, [(i, P)], [(i, rm)]⟩, ⟨setA C i P, [], [(i, rm)]⟩],
         ⟨setA C i P, [], [(i, rm)]⟩) := by
  simp [commitT, renameChunkT, lookA, delA, setA]

theorem commitT_save_prev (j : Nat) (rm0 rm P : List Nat) (C : List (Nat × List Nat)) :
    commitT (j + 1) rm false ⟨C, [(j + 1, P)], [(j, rm0)]⟩
      = ([⟨C, [(j + 1, P)], [(j, rm0), (j + 1, rm)]⟩,
          ⟨C, [(j + 1, P)], [(j + 1, rm)]⟩,
          ⟨setA C (j + 1) P, [], [(j + 1, rm)]⟩],
         ⟨setA C (j + 1) P, [], [(j + 1, rm)]⟩) := by
  have h1 : j ≠ j + 1 := by omega
  have h2 : ¬ (j + 1 ≤ j) := by omega
  simp [commitT, renameChunkT, lookA, delA, setA, h1, h2]

/-- Combining fuel-irrelevance with committed-only dependence. -/
theorem runLoopT_congr_fuel (maxSz : Nat) (sz : Nat → Nat) (hmax : 0 < maxSz)
    (f g : Nat) (rem : List Nat) (i : Nat) (d d' : Disk)
    (hcom : d.committed = d'.committed)
    (hf : rem.length + 1 ≤ f) (hg : rem.length + 1 ≤ g) :
    (runLoopT maxSz sz f rem i false d).d.committed
      = (runLoopT maxSz sz g rem i false d').d.committed := by
  rw [runLoopT_fuel_irrel maxSz sz hmax f g rem i d hf hg]
  exact runLoopT_congr maxSz sz g rem i false d d' hcom

/-- Replaying the final (end-of-sequence) chunk: restarting the loop at chunk
`i` with the already-committed chunk `i` on disk rewrites the same file content
and re-renames it onto itself, leaving the committed directory unchanged. -/
theorem runLoopT_replay_final (maxSz : Nat) (sz : Nat → Nat)
    (rem : List Nat) (i fuel : Nat) (C cp : List (Nat × List Nat))
    (hE : recEos maxSz sz rem 0 = true) :
    (runLoopT maxSz sz (fuel + 1) rem i false
        ⟨setA C i (recPulled maxSz sz rem 0), [], cp⟩).d.committed
      = setA C i (recPulled maxSz sz rem 0) := by
  obtain ⟨w1, w2, w3, w4⟩ := writeRecT_run maxSz sz i rem 0
    (setA C i (recPulled maxSz sz rem 0)) cp []
  rw [runLoopT_succ_false maxSz sz fuel rem i
    ⟨setA C i (recPulled maxSz sz rem 0), [], cp⟩ _ _ rfl rfl]
  simp only []
  have hstart : chunkStartD i (⟨setA C i (recPulled maxSz sz rem 0), [], cp⟩ : Disk)
      = ⟨setA C i (recPulled maxSz sz rem 0), [(i, [])], cp⟩ := rfl
  rw [hstart, w1, w2, w3, hE, recEos_true_recRem_nil maxSz sz rem 0 hE]
  simp only [List.nil_append]
  rw [commitT_eos_singleton, setA_setA]
  simp only []
  rw [runLoopT_eos]

/-- Well-formedness of a window-start state of the pure run: before chunk `i`
starts, the uncommitted directory is empty, and the checkpoints directory holds
exactly the checkpoint saved while committing chunk `i - 1`, whose content is
the current iterator position `rem` — or nothing when `i = 0`, in which case no
element has been consumed yet. -/
def WindowWF (xs rem : List Nat) (i : Nat) (d : Disk) : Prop :=
  d.uncommitted = [] ∧ rem.length ≤ xs.length ∧
    ((i = 0 ∧ rem = xs ∧ d.checkpoints = []) ∨
     (∃ j, i = j + 1 ∧ d.checkpoints = [(j, rem)]))

/-- Main crash-recovery lemma: from any disk snapshot emitted by the loop when
started in a well-formed window state, a restarted writer (fresh iterator,
restore, reconcile, loop) ends with exactly the committed directory of the
uninterrupted run. -/
theorem runLoopT_crash (maxSz : Nat) (sz : Nat → Nat) (xs : List Nat) (hmax : 0 < maxSz) :
    ∀ (fuel : Nat) (rem : List Nat) (i : Nat) (eos : Bool) (d : Disk),
      (eos = false → WindowWF xs rem i d ∧ rem.length + 1 ≤ fuel) →
      (eos = true → rem = []) →
      (runLoopT maxSz sz fuel rem i eos d).eos = true ∧
      (runLoopT maxSz sz fuel rem i eos d).rem = [] ∧
      ∀ dx ∈ (runLoopT maxSz sz fuel rem i eos d).tr,
        ∃ R', runFromDiskT maxSz sz (xs.length + 1) xs dx = some R' ∧
          R'.d.committed = (runLoopT maxSz sz fuel rem i eos d).d.committed := by
  intro fuel
  induction fuel with
  | zero =>
    intro rem i eos d hWF h0
    cases eos with
    | false =>
      have hcon := (hWF rfl).2
      exact absurd hcon (by omega)
    | true =>
      refine ⟨rfl, h0 rfl, ?_⟩
      intro dx hdx
      exact absurd hdx (List.not_mem_nil dx)
  | succ f ih =>
    intro rem i eos d hWF h0
    cases eos with
    | true =>
      rw [runLoopT_eos]
      refine ⟨rfl, h0 rfl, ?_⟩
      intro dx hdx
      exact absurd hdx (List.not_mem_nil dx)
    | false =>
      obtain ⟨hWF', hfuel⟩ := hWF rfl
      obtain ⟨C, U, cp⟩ := d
      obtain ⟨hU, hlen, hcp⟩ := hWF'
      simp only [] at hU
      subst hU
      rcases hcp with ⟨hi0, hrem, hcp0⟩ | ⟨j, hij, hcpj⟩
      · -- chunk 0: no checkpoint on disk yet, iterator at the start
        subst hi0
        simp only [] at hcp0
        subst hcp0
        subst hrem
        obtain ⟨w1, w2, w3, w4⟩ := writeRecT_run maxSz sz 0 rem 0 C [] []
        have hR := runLoopT_succ_false maxSz sz f rem 0 ⟨C, [], []⟩ _ _ rfl rfl
        have hstart : chunkStartD 0 (⟨C, [], []⟩ : Disk) = ⟨C, [(0, [])], []⟩ := rfl
        rw [hstart, w1, w2, w3] at hR
        simp only [List.nil_append] at hR
        by_cases hE : recEos maxSz sz rem 0 = true
        · -- the first chunk is also the last
          have hRM : recRem maxSz sz rem 0 = [] := recEos_true_recRem_nil maxSz sz rem 0 hE
          rw [hE, hRM, commitT_eos_singleton, runLoopT_eos] at hR
          simp only [] at hR
          rw [hR]
          refine ⟨rfl, rfl, ?_⟩
          intro dx hdx
          simp only [List.cons_append, List.append_nil, List.mem_cons, List.mem_append,
            List.mem_singleton, List.not_mem_nil, or_false] at hdx
          rcases hdx with rfl | hdx | rfl
          · refine ⟨runLoopT maxSz sz (rem.length + 1) rem 0 false ⟨C, [(0, [])], []⟩, ?_, ?_⟩
            · simp [runFromDiskT, restoreT_nil_cp]
            · have h1 := runLoopT_congr_fuel maxSz sz hmax (rem.length + 1) (f + 1) rem 0
                ⟨C, [(0, [])], []⟩ ⟨C, [], []⟩ rfl (by omega) hfuel
              rw [hR] at h1
              exact h1
          · obtain ⟨x, rfl⟩ := w4 dx hdx
            refine ⟨runLoopT maxSz sz (rem.length + 1) rem 0 false ⟨C, [(0, x)], []⟩, ?_, ?_⟩
            · simp [runFromDiskT, restoreT_nil_cp]
            · have h1 := runLoopT_congr_fuel maxSz sz hmax (rem.length + 1) (f + 1) rem 0
                ⟨C, [(0, x)], []⟩ ⟨C, [], []⟩ rfl (by omega) hfuel
              rw [hR] at h1
              exact h1
          · refine ⟨runLoopT maxSz sz (rem.length + 1) rem 0 false
                ⟨setA C 0 (recPulled maxSz sz rem 0), [], []⟩, ?_, ?_⟩
            · simp [runFromDiskT, restoreT_nil_cp]
            · exact runLoopT_replay_final maxSz sz rem 0 rem.length C [] hE
        · have hE' : recEos maxSz sz rem 0 = false := by
            revert hE
            cases recEos maxSz sz rem 0 <;> simp
          have hne : rem ≠ [] := by
            intro hcon
            rw [hcon, recEos_nil maxSz sz 0 hmax] at hE'
            cases hE'
          have hlt : (recRem maxSz sz rem 0).length < rem.length := by
            cases rem with
            | nil => exact absurd rfl hne
            | cons e rest => exact recRem_lt maxSz sz e rest 0 hmax
          rw [hE', commitT_save_nil] at hR
          have hIH := ih (recRem maxSz sz rem 0) 1 false
            ⟨setA C 0 (recPulled maxSz sz rem 0), [], [(0, recRem maxSz sz rem 0)]⟩
            (fun _ => ⟨⟨rfl, le_trans (recRem_length_le maxSz sz rem 0) hlen,
              Or.inr ⟨0, rfl, rfl⟩⟩, by omega⟩)
            (fun h => nomatch h)
          rw [hR]
          refine ⟨hIH.1, hIH.2.1, ?_⟩
          intro dx hdx
          simp only [List.cons_append, List.mem_cons, List.mem_append,
            List.mem_singleton, List.not_mem_nil, or_false] at hdx
          rcases hdx with rfl | (hdx | (rfl | rfl | rfl)) | hdx
          · refine ⟨runLoopT maxSz sz (rem.length + 1) rem 0 false ⟨C, [(0, [])], []⟩, ?_, ?_⟩
            · simp [runFromDiskT, restoreT_nil_cp]
            · have h1 := runLoopT_congr_fuel maxSz sz hmax (rem.length + 1) (f + 1) rem 0
                ⟨C, [(0, [])], []⟩ ⟨C, [], []⟩ rfl (by omega) hfuel
              rw [hR] at h1
              exact h1
          · obtain ⟨x, rfl⟩ := w4 dx hdx
            refine ⟨runLoopT maxSz sz (rem.length + 1) rem 0 false ⟨C, [(0, x)], []⟩, ?_, ?_⟩
            · simp [runFromDiskT, restoreT_nil_cp]
            · have h1 := runLoopT_congr_fuel maxSz sz hmax (rem.length + 1) (f + 1) rem 0
                ⟨C, [(0, x)], []⟩ ⟨C, [], []⟩ rfl (by omega) hfuel
              rw [hR] at h1
              exact h1
          · refine ⟨runLoopT maxSz sz (rem.length + 1) (recRem maxSz sz rem 0) 1 false
                ⟨setA C 0 (recPulled maxSz sz rem 0), [], [(0, recRem maxSz sz rem 0)]⟩, ?_, ?_⟩
            · simp [runFromDiskT, restoreT_single_cp, syncA_single_le, syncA]
            · have h1 := runLoopT_fuel_irrel maxSz sz hmax (rem.length + 1) f
                (recRem maxSz sz rem 0) 1
                ⟨setA C 0 (recPulled maxSz sz rem 0), [], [(0, recRem maxSz sz rem 0)]⟩
                (by omega) (by omega)
              exact congrArg (fun r => r.d.committed) h1
          · refine ⟨runLoopT maxSz sz (rem.length + 1) (recRem maxSz sz rem 0) 1 false
                ⟨setA C 0 (recPulled maxSz sz rem 0), [], [(0, recRem maxSz sz rem 0)]⟩, ?_, ?_⟩
            · simp [runFromDiskT, restoreT_single_cp, syncA_single_le, syncA]
            · have h1 := runLoopT_fuel_irrel maxSz sz hmax (rem.length + 1) f
                (recRem maxSz sz rem 0) 1
                ⟨setA C 0 (recPulled maxSz sz rem 0), [], [(0, recRem maxSz sz rem 0)]⟩
                (by omega) (by omega)
              exact congrArg (fun r => r.d.committed) h1
          · refine ⟨runLoopT maxSz sz (rem.length + 1) (recRem maxSz sz rem 0) 1 false
                ⟨setA C 0 (recPulled maxSz sz rem 0), [], [(0, recRem maxSz sz rem 0)]⟩, ?_, ?_⟩
            · simp [runFromDiskT, restoreT_single_cp, syncA_single_le, syncA]
            · have h1 := runLoopT_fuel_irrel maxSz sz hmax (rem.length + 1) f
                (recRem maxSz sz rem 0) 1
                ⟨setA C 0 (recPulled maxSz sz rem 0), [], [(0, recRem maxSz sz rem 0)]⟩
                (by omega) (by omega)
              exact congrArg (fun r => r.d.committed) h1
          · exact hIH.2.2 dx hdx
      · -- chunk j+1: checkpoint_j on disk holding the iterator position
        subst hij
        simp only [] at hcpj
        subst hcpj
        obtain ⟨w1, w2, w3, w4⟩ := writeRecT_run maxSz sz (j + 1) rem 0 C [(j, rem)] []
        have hR := runLoopT_succ_false maxSz sz f rem (j + 1) ⟨C, [], [(j, rem)]⟩ _ _ rfl rfl
        have hstart : chunkStartD (j + 1) (⟨C, [], [(j, rem)]⟩ : Disk)
            = ⟨C, [(j + 1, [])], [(j, rem)]⟩ := rfl
        rw [hstart, w1, w2, w3] at hR
        simp only [List.nil_append] at hR
        by_cases hE : recEos maxSz sz rem 0 = true
        · have hRM : recRem maxSz sz rem 0 = [] := recEos_true_recRem_nil maxSz sz rem 0 hE
          rw [hE, hRM, commitT_eos_singleton, runLoopT_eos] at hR
          simp only [] at hR
          rw [hR]
          refine ⟨rfl, rfl, ?_⟩
          intro dx hdx
          simp only [List.cons_append, List.append_nil, List.mem_cons, List.mem_append,
            List.mem_singleton, List.not_mem_nil, or_false] at hdx
          rcases hdx with rfl | hdx | rfl
          · refine ⟨runLoopT maxSz sz (xs.length + 1) rem (j + 1) false
                ⟨C, [], [(j, rem)]⟩, ?_, ?_⟩
            · simp [runFromDiskT, restoreT_single_cp, syncA_single_gt, Nat.lt_succ_self, syncA]
            · have h1 := runLoopT_fuel_irrel maxSz sz hmax (xs.length + 1) (f + 1) rem (j + 1)
                ⟨C, [], [(j, rem)]⟩ (by omega) hfuel
              rw [hR] at h1
              exact congrArg (fun r => r.d.committed) h1
          · obtain ⟨x, rfl⟩ := w4 dx hdx
            refine ⟨runLoopT maxSz sz (xs.length + 1) rem (j + 1) false
                ⟨C, [], [(j, rem)]⟩, ?_, ?_⟩
            · simp [runFromDiskT, restoreT_single_cp, syncA_single_gt, Nat.lt_succ_self, syncA]
            · have h1 := runLoopT_fuel_irrel maxSz sz hmax (xs.length + 1) (f + 1) rem (j + 1)
                ⟨C, [], [(j, rem)]⟩ (by omega) hfuel
              rw [hR] at h1
              exact congrArg (fun r => r.d.committed) h1
          · refine ⟨runLoopT maxSz sz (xs.length + 1) rem (j + 1) false
                ⟨setA C (j + 1) (recPulled maxSz sz rem 0), [], [(j, rem)]⟩, ?_, ?_⟩
            · simp [runFromDiskT, restoreT_single_cp, syncA_single_gt, Nat.lt_succ_self, syncA]
            · exact runLoopT_replay_final maxSz sz rem (j + 1) xs.length C [(j, rem)] hE
        · have hE' : recEos maxSz sz rem 0 = false := by
            revert hE
            cases recEos maxSz sz rem 0 <;> simp
          have hne : rem ≠ [] := by
            intro hcon
            rw [hcon, recEos_nil maxSz sz 0 hmax] at hE'
            cases hE'
          have hlt : (recRem maxSz sz rem 0).length < rem.length := by
            cases rem with
            | nil => exact absurd rfl hne
            | cons e rest => exact recRem_lt maxSz sz e rest 0 hmax
          rw [hE', commitT_save_prev] at hR
          have hIH := ih (recRem maxSz sz rem 0) (j + 2) false
            ⟨setA C (j + 1) (recPulled maxSz sz rem 0), [], [(j + 1, recRem maxSz sz rem 0)]⟩
            (fun _ => ⟨⟨rfl, le_trans (recRem_length_le maxSz sz rem 0) hlen,
              Or.inr ⟨j + 1, rfl, rfl⟩⟩, by omega⟩)
            (fun h => nomatch h)
          rw [hR]
          refine ⟨hIH.1, hIH.2.1, ?_⟩
          intro dx hdx
          simp only [List.cons_append, List.mem_cons, List.mem_append,
            List.mem_singleton, List.not_mem_nil, or_false] at hdx
          rcases hdx with rfl | (hdx | (rfl | rfl | rfl)) | hdx
          · refine ⟨runLoopT maxSz sz (xs.length + 1) rem (j + 1) false
                ⟨C, [], [(j, rem)]⟩, ?_, ?_⟩
            · simp [runFromDiskT, restoreT_single_cp, syncA_single_gt, Nat.lt_succ_self, syncA]
            · have h1 := runLoopT_fuel_irrel maxSz sz hmax (xs.length + 1) (f + 1) rem (j + 1)
                ⟨C, [], [(j, rem)]⟩ (by omega) hfuel
              rw [hR] at h1
              exact congrArg (fun r => r.d.committed) h1
          · obtain ⟨x, rfl⟩ := w4 dx hdx
            refine ⟨runLoopT maxSz sz (xs.length + 1) rem (j + 1) false
                ⟨C, [], [(j, rem)]⟩, ?_, ?_⟩
            · simp [runFromDiskT, restoreT_single_cp, syncA_single_gt, Nat.lt_succ_self, syncA]
            · have h1 := runLoopT_fuel_irrel maxSz sz hmax (xs.length + 1) (f + 1) rem (j + 1)
                ⟨C, [], [(j, rem)]⟩ (by omega) hfuel
              rw [hR] at h1
              exact congrArg (fun r => r.d.committed) h1
          · -- checkpoint written, old checkpoint not yet pruned, chunk not yet renamed
            refine ⟨runLoopT maxSz sz (xs.length + 1) (recRem maxSz sz rem 0) (j + 2) false
                ⟨setA C (j + 1) (recPulled maxSz sz rem 0), [],
                  [(j, rem), (j + 1, recRem maxSz sz rem 0)]⟩, ?_, ?_⟩
            · simp [runFromDiskT, restoreT_pair_cp _ _ _ _ _ _ _ (Nat.lt_succ_self j),
                syncA_single_le, syncA]
            · have h1 := runLoopT_congr_fuel maxSz sz hmax (xs.length + 1) f
                (recRem maxSz sz rem 0) (j + 2)
                ⟨setA C (j + 1) (recPulled maxSz sz rem 0), [],
                  [(j, rem), (j + 1, recRem maxSz sz rem 0)]⟩
                ⟨setA C (j + 1) (recPulled maxSz sz rem 0), [],
                  [(j + 1, recRem maxSz sz rem 0)]⟩
                rfl (by omega) (by omega)
              exact h1
          · -- checkpoint written and pruned, chunk not yet renamed
            refine ⟨runLoopT maxSz sz (xs.length + 1) (recRem maxSz sz rem 0) (j + 2) false
                ⟨setA C (j + 1) (recPulled maxSz sz rem 0), [],
                  [(j + 1, recRem maxSz sz rem 0)]⟩, ?_, ?_⟩
            · simp [runFromDiskT, restoreT_single_cp, syncA_single_le, syncA]
            · have h1 := runLoopT_fuel_irrel maxSz sz hmax (xs.length + 1) f
                (recRem maxSz sz rem 0) (j + 2)
                ⟨setA C (j + 1) (recPulled maxSz sz rem 0), [],
                  [(j + 1, recRem maxSz sz rem 0)]⟩
                (by omega) (by omega)
              exact congrArg (fun r => r.d.committed) h1
          · -- chunk renamed: the next window's start state
            refine ⟨runLoopT maxSz sz (xs.length + 1) (recRem maxSz sz rem 0) (j + 2) false
                ⟨setA C (j + 1) (recPulled maxSz sz rem 0), [],
                  [(j + 1, recRem maxSz sz rem 0)]⟩, ?_, ?_⟩
            · simp [runFromDiskT, restoreT_single_cp, syncA_single_le, syncA]
            · have h1 := runLoopT_fuel_irrel maxSz sz hmax (xs.length + 1) f
                (recRem maxSz sz rem 0) (j + 2)
                ⟨setA C (j + 1) (recPulled maxSz sz rem 0), [],
                  [(j + 1, recRem maxSz sz rem 0)]⟩
                (by omega) (by omega)
              exact congrArg (fun r => r.d.committed) h1
          · exact hIH.2.2 dx hdx

/-- C3: crash-resume equivalence.  For any element sequence `xs`, any element
size function and any positive maximum chunk size, the uninterrupted run from
an empty disk terminates (source exhausted), its committed chunks contain
exactly the input elements in order (no element lost, none duplicated), a
restart on the untouched empty disk is the uninterrupted run itself, and for
*every* intermediate disk snapshot of the run (one per filesystem operation —
chunk-file creation, record append, checkpoint write, checkpoint prune, chunk
rename), restarting a fresh writer from that snapshot (restore from the latest
checkpoint, reconcile uncommitted chunks, resume the loop) produces exactly the
same final committed directory, by index and content. -/
theorem claim_C3_crash_resume_equivalence (maxSz : Nat) (sz : Nat → Nat) (xs : List Nat)
    (hmax : 0 < maxSz) :
    (runLoopT maxSz sz (xs.length + 1) xs 0 false ⟨[], [], []⟩).eos = true ∧
    ((runLoopT maxSz sz (xs.length + 1) xs 0 false ⟨[], [], []⟩).d.committed.map
        Prod.snd).flatten = xs ∧
    runFromDiskT maxSz sz (xs.length + 1) xs ⟨[], [], []⟩
      = some (runLoopT maxSz sz (xs.length + 1) xs 0 false ⟨[], [], []⟩) ∧
    ∀ dx ∈ (runLoopT maxSz sz (xs.length + 1) xs 0 false ⟨[], [], []⟩).tr,
      ∃ R', runFromDiskT maxSz sz (xs.length + 1) xs dx = some R' ∧
        R'.d.committed
          = (runLoopT maxSz sz (xs.length + 1) xs 0 false ⟨[], [], []⟩).d.committed := by
  have hmain := runLoopT_crash maxSz sz xs hmax (xs.length + 1) xs 0 false ⟨[], [], []⟩
    (fun _ => ⟨⟨rfl, le_refl _, Or.inl ⟨rfl, rfl, rfl⟩⟩, le_refl _⟩)
    (fun h => nomatch h)
  obtain ⟨New, hN1, hN2⟩ := runLoopT_partition maxSz sz (xs.length + 1) xs 0 ⟨[], [], []⟩
    (by intro p hp; cases hp)
  refine ⟨hmain.1, ?_, ?_, hmain.2.2⟩
  · rw [hmain.2.1] at hN2
    rw [hN1]
    simp only [List.nil_append]
    simpa using hN2
  · simp [runFromDiskT, restoreT_nil_cp]

/-- Witness for C3 at a concrete run: elements `[2, 2, 2]`, identity sizes,
max chunk size 3.  The uninterrupted run commits `chunk_0 = [2, 2]` and
`chunk_1 = [2]`; crashing at the snapshot taken right after `checkpoint_0` was
written but before `chunk_0` was renamed (disk: uncommitted `chunk_0 = [2,2]`,
checkpoint 0 storing remaining `[2]`) and restarting yields the same committed
directory. -/
theorem claim_C3_witness :
    ((runLoopT 3 (fun e => e) 4 [2, 2, 2] 0 false ⟨[], [], []⟩).d.committed.map
        Prod.snd).flatten = [2, 2, 2] ∧
    ∃ R', runFromDiskT 3 (fun e => e) 4 [2, 2, 2] ⟨[], [(0, [2, 2])], [(0, [2])]⟩
        = some R' ∧
      R'.d.committed = (runLoopT 3 (fun e => e) 4 [2, 2, 2] 0 false ⟨[], [], []⟩).d.committed := by
  have h := claim_C3_crash_resume_equivalence 3 (fun e => e) [2, 2, 2] (by norm_num)
  exact ⟨h.2.1, h.2.2.2 ⟨[], [(0, [2, 2])], [(0, [2])]⟩ (by decide)⟩
